import Mathlib

/-!
Verification development for the keyberon keyboard-firmware core:
a shallow embedding of the layout engine (`src/layout.rs`) and the
debounced matrix scanner (`src/debounced_matrix.rs`), with theorems
checking the natural-language specification against the code.

Machine integers (`u16`, `u32`) are modelled as `Nat`; the two
saturating operations of the source (`saturating_sub`, `saturating_add`
at `u16::MAX`) are modelled explicitly, and the one unchecked
subtraction (`self.delay - since` in `WaitingState::tick`) is modelled
as a checked subtraction returning `none` on underflow.  Functions that
can hit the `assert!` in `do_action` or that unchecked subtraction
return `Option`; `none` models a panic.
-/

namespace Keyberon

/-- An event on the key matrix (`Event` in `layout.rs`): press or
release with coordinates `(i, j)`.  Coordinates are `u8` in the source
and are only used as equality keys; they are modelled as `Nat`. -/
inductive Event where
  | press (i j : Nat)
  | release (i j : Nat)
deriving DecidableEq, Repr

/-- `Event::coord`. -/
def Event.coord : Event → Nat × Nat
  | .press i j => (i, j)
  | .release i j => (i, j)

/-- `Event::is_press`. -/
def Event.is_press : Event → Bool
  | .press _ _ => true
  | .release _ _ => false

/-- `Event::is_release`. -/
def Event.is_release : Event → Bool
  | .release _ _ => true
  | .press _ _ => false

/-- `CustomEvent` in `layout.rs`.  The payload is a borrow `&'static T`
in the source; borrows are modelled by values. -/
inductive CustomEvent (T : Type) where
  | noEvent
  | press (v : T)
  | release (v : T)
deriving DecidableEq, Repr

/-- `CustomEvent::update`: `self` is modified by a new event `e`
following `match (&e, &self)`; returns the updated `self`. -/
def CustomEvent.update {T : Type} (acc e : CustomEvent T) : CustomEvent T :=
  match e, acc with
  | .release v, .noEvent => .release v
  | .release v, .press _ => .release v
  | .press v, .noEvent => .press v
  | _, _ => acc

/-- `HoldTapConfig` in `action.rs` (declared there; the variants and
their use are fixed by the `match` in `WaitingState::tick`). -/
inductive HoldTapConfig where
  | default
  | holdOnOtherKeyPress
  | permissiveHold
deriving DecidableEq, Repr

/-- `Action<T>` in `action.rs`: the variants and their payloads are
fixed by the dispatch in `Layout::do_action`.  Key codes are opaque to
the engine and modelled as `Nat`.  Static references (`&'static
Action`, slices) are modelled by values / lists. -/
inductive Action (T : Type) where
  | noOp
  | trans
  | keyCode (keycode : Nat)
  | multipleKeyCodes (keycodes : List Nat)
  | multipleActions (actions : List (Action T))
  | layer (value : Nat)
  | defaultLayer (value : Nat)
  | holdTap (timeout : Nat) (hold : Action T) (tap : Action T)
      (config : HoldTapConfig) (tap_hold_interval : Nat)
  | custom (value : T)

/-- `State<T>` in `layout.rs` (named `EState` to avoid clashing with
ambient names): one record per currently-active action instance. -/
inductive EState (T : Type) where
  | normalKey (keycode : Nat) (coord : Nat × Nat)
  | layerModifier (value : Nat) (coord : Nat × Nat)
  | custom (value : T) (coord : Nat × Nat)
deriving DecidableEq, Repr

/-- `State::keycode`. -/
def EState.keycode {T : Type} : EState T → Option Nat
  | .normalKey k _ => some k
  | _ => none

/-- `State::get_layer`. -/
def EState.get_layer {T : Type} : EState T → Option Nat
  | .layerModifier v _ => some v
  | _ => none

/-- The coordinate stored in a `State` record (each variant carries
one). -/
def EState.coord {T : Type} : EState T → Nat × Nat
  | .normalKey _ c => c
  | .layerModifier _ c => c
  | .custom _ c => c

/-- `State::release`: given the released coordinate `c` and the current
D-channel accumulator, returns `(surviving entry, updated
accumulator)`; a matching `Custom` funnels `CustomEvent::Release` into
the accumulator, matching entries are dropped (`None`). -/
def EState.release {T : Type} (s : EState T) (c : Nat × Nat)
    (cu : CustomEvent T) : Option (EState T) × CustomEvent T :=
  match s with
  | .normalKey _ coord => if coord = c then (none, cu) else (some s, cu)
  | .layerModifier _ coord => if coord = c then (none, cu) else (some s, cu)
  | .custom v coord =>
      if coord = c then (none, cu.update (.release v)) else (some s, cu)

/-- `Stacked` in `layout.rs`: a queued event with its elapsed tick
count `since : u16`. -/
structure Stacked where
  event : Event
  since : Nat
deriving DecidableEq, Repr

/-- `Stacked::tick`: `since.saturating_add(1)` at `u16::MAX`. -/
def Stacked.tick (s : Stacked) : Stacked :=
  { s with since := min (s.since + 1) 65535 }

/-- `WaitingState<T>` in `layout.rs`: the single in-flight hold-tap. -/
structure WaitingState (T : Type) where
  coord : Nat × Nat
  timeout : Nat
  delay : Nat
  hold : Action T
  tap : Action T
  config : HoldTapConfig

/-- `WaitingAction` in `layout.rs`. -/
inductive WaitingAction where
  | hold
  | tap
  | noOp
deriving DecidableEq, Repr

/-- `WaitingState::is_corresponding_release`. -/
def WaitingState.is_corresponding_release {T : Type} (w : WaitingState T)
    (e : Event) : Bool :=
  match e with
  | .release i j => decide ((i, j) = w.coord)
  | _ => false

/-- Checked `u16` subtraction: `a - b` underflows (panics in a debug
build) when `b > a`. -/
def checkedSub (a b : Nat) : Option Nat :=
  if b ≤ a then some (a - b) else none

/-- The inner loop of the `PermissiveHold` pre-check in
`WaitingState::tick`: some queued press at position `x` is followed
later in the deque by the matching release. -/
def permissiveHoldCheck (dq : List Stacked) : Bool :=
  dq.enum.any fun p =>
    p.2.event.is_press &&
      ((dq.drop (p.1 + 1)).any fun s2 =>
        decide (s2.event = Event.release p.2.event.coord.1 p.2.event.coord.2))

/-- The tail of `WaitingState::tick` after the config pre-check
(source lines 247-260): find the corresponding release in the deque
and compare `timeout` against `delay - since`, else check the timeout.
`none` models the panic when the unchecked `u16` subtraction
`self.delay - since` underflows. -/
def WaitingState.releaseOrTimeout {T : Type} (w' : WaitingState T)
    (stacked : List Stacked) : Option (WaitingAction × WaitingState T) :=
  match stacked.find? (fun s => w'.is_corresponding_release s.event) with
  | some s =>
      match checkedSub w'.delay s.since with
      | some d => if d ≤ w'.timeout then some (.tap, w') else some (.hold, w')
      | none => none
  | none => if w'.timeout = 0 then some (.hold, w') else some (.noOp, w')

/-- `WaitingState::tick`: decrement `timeout` (saturating), run the
config pre-check, then fall through to the release / timeout check.
Returns the chosen `WaitingAction` together with the mutated waiting
record, or `none` on the underflow panic. -/
def WaitingState.tick {T : Type} (w : WaitingState T) (stacked : List Stacked) :
    Option (WaitingAction × WaitingState T) :=
  let w' : WaitingState T := { w with timeout := w.timeout - 1 }
  match w'.config with
  | .default => w'.releaseOrTimeout stacked
  | .holdOnOtherKeyPress =>
      if stacked.any (fun s => s.event.is_press) then some (.hold, w')
      else w'.releaseOrTimeout stacked
  | .permissiveHold =>
      if permissiveHoldCheck stacked then some (.hold, w')
      else w'.releaseOrTimeout stacked

/-- The `Layers` table: `[layer][row][col]` of actions.  The
compile-time array extents `C`, `R`, `L` are modelled by list
lengths. -/
abbrev Layers (T : Type) := List (List (List (Action T)))

/-- The mutable fields of `Layout<T, C, R, L>` (the immutable `layers`
reference is passed to each operation separately). -/
structure LState (T : Type) where
  default_layer : Nat
  states : List (EState T)
  waiting : Option (WaitingState T)
  deque : List Stacked

/-- `Layout::new`: default layer 0, empty state. -/
def LState.init (T : Type) : LState T :=
  { default_layer := 0, states := [], waiting := none, deque := [] }

namespace Layout

variable {T : Type}

/-- `Layout::keycodes` (collected into a list). -/
def keycodes (st : LState T) : List Nat :=
  st.states.filterMap EState.keycode

/-- `Layout::current_layer`: first `LayerModifier` value (if any)
replaces the default layer, subsequent ones are added. -/
def current_layer (st : LState T) : Nat :=
  match st.states.filterMap EState.get_layer with
  | [] => st.default_layer
  | l :: rest => rest.foldl (· + ·) l

/-- The triple `get` chain of `Layout::press_as_action`. -/
def layerLookup (layers : Layers T) (coord : Nat × Nat) (layer : Nat) :
    Option (Action T) :=
  (layers.get? layer).bind fun l =>
    (l.get? coord.1).bind fun r => r.get? coord.2

/-- `Layout::press_as_action`.  The source recurses at most once (from
a non-default layer onto the default layer, where `Trans` then resolves
to `NoOp`); the recursion is unrolled here. -/
def press_as_action (layers : Layers T) (default_layer : Nat)
    (coord : Nat × Nat) (layer : Nat) : Action T :=
  match layerLookup layers coord layer with
  | none => .noOp
  | some .trans =>
      if layer ≠ default_layer then
        match layerLookup layers coord default_layer with
        | none => .noOp
        | some .trans => .noOp
        | some a => a
      else .noOp
  | some a => a

/-- `Layout::set_default_layer`. -/
def set_default_layer (layers : Layers T) (st : LState T) (value : Nat) :
    LState T :=
  if value < layers.length then { st with default_layer := value } else st

/-- `heapless::Vec::push` on `states` (capacity 64): returns the new
list and whether the push succeeded. -/
def statesPush (states : List (EState T)) (s : EState T) :
    List (EState T) × Bool :=
  if states.length < 64 then (states ++ [s], true) else (states, false)

mutual

/-- `Layout::do_action`.  The leading `assert!(self.waiting.is_none())`
is modelled by returning `none` (a panic) when a waiting record is
present. -/
def do_action (layers : Layers T) (st : LState T) (action : Action T)
    (coord : Nat × Nat) (delay : Nat) : Option (LState T × CustomEvent T) :=
  if st.waiting.isSome then none
  else
    match action with
    | .noOp => some (st, .noEvent)
    | .trans => some (st, .noEvent)
    | .holdTap timeout hold tp config _ =>
        some ({ st with
                  waiting := some ⟨coord, timeout, delay, hold, tp, config⟩ },
              .noEvent)
    | .keyCode k =>
        some ({ st with states := (statesPush st.states (.normalKey k coord)).1 },
              .noEvent)
    | .multipleKeyCodes ks =>
        some ({ st with
                  states := ks.foldl
                    (fun acc k => (statesPush acc (.normalKey k coord)).1)
                    st.states },
              .noEvent)
    | .multipleActions acts => do_actions layers st acts coord delay .noEvent
    | .layer v =>
        some ({ st with states := (statesPush st.states (.layerModifier v coord)).1 },
              .noEvent)
    | .defaultLayer v => some (set_default_layer layers st v, .noEvent)
    | .custom v =>
        let p := statesPush st.states (.custom v coord)
        if p.2 then some ({ st with states := p.1 }, .press v)
        else some ({ st with states := p.1 }, .noEvent)

/-- The `MultipleActions` loop of `Layout::do_action`, folding the
D-channel accumulator with `CustomEvent::update`. -/
def do_actions (layers : Layers T) (st : LState T) (acts : List (Action T))
    (coord : Nat × Nat) (delay : Nat) (cu : CustomEvent T) :
    Option (LState T × CustomEvent T) :=
  match acts with
  | [] => some (st, cu)
  | a :: rest =>
      match do_action layers st a coord delay with
      | none => none
      | some (st', c) => do_actions layers st' rest coord delay (cu.update c)

end

/-- Moving the last element of a list to its front: the effect of
`swap_remove_unchecked` on the unprocessed suffix of the vector. -/
def moveLastToFront {α : Type} : List α → List α
  | [] => []
  | x :: xs => (x :: xs).getLast (by simp) :: (x :: xs).dropLast

theorem length_moveLastToFront {α : Type} (l : List α) :
    (moveLastToFront l).length = l.length := by
  cases l with
  | nil => rfl
  | cons x xs => simp [moveLastToFront]

/-- `MapRetain::map_retain` specialised to the release closure of
`Layout::unstack`, with the processed prefix and remaining suffix of
the vector made explicit.  `swap_remove_unchecked` moves the last
element of the vector into the removed slot, i.e. to the front of the
remaining suffix. -/
def map_retain_release_go (c : Nat × Nat) : Nat → List (EState T) →
    List (EState T) → CustomEvent T → List (EState T) × CustomEvent T
  | 0, processed, _, cu => (processed, cu)
  | fuel + 1, processed, remaining, cu =>
      match remaining with
      | [] => (processed, cu)
      | s :: rest =>
          match s.release c cu with
          | (some t, cu') => map_retain_release_go c fuel (processed ++ [t]) rest cu'
          | (none, cu') =>
              map_retain_release_go c fuel processed (moveLastToFront rest) cu'

/-- The loop of `map_retain`, entered with the exact fuel
`remaining.length`: each iteration removes exactly one element from the
remaining suffix, so the fuel never runs out. -/
def map_retain_release (c : Nat × Nat) (processed remaining : List (EState T))
    (cu : CustomEvent T) : List (EState T) × CustomEvent T :=
  map_retain_release_go c remaining.length processed remaining cu


/-- `Layout::unstack`. -/
def unstack (layers : Layers T) (st : LState T) (stacked : Stacked) :
    Option (LState T × CustomEvent T) :=
  match stacked.event with
  | .release i j =>
      let p := map_retain_release (i, j) [] st.states .noEvent
      some ({ st with states := p.1 }, p.2)
  | .press i j =>
      do_action layers st
        (press_as_action layers st.default_layer (i, j) (current_layer st))
        (i, j) stacked.since

/-- `Layout::waiting_into_hold`. -/
def waiting_into_hold (layers : Layers T) (st : LState T) :
    Option (LState T × CustomEvent T) :=
  match st.waiting with
  | some w => do_action layers { st with waiting := none } w.hold w.coord 0
  | none => some (st, .noEvent)

/-- `Layout::waiting_into_tap`. -/
def waiting_into_tap (layers : Layers T) (st : LState T) :
    Option (LState T × CustomEvent T) :=
  match st.waiting with
  | some w => do_action layers { st with waiting := none } w.tap w.coord 0
  | none => some (st, .noEvent)

/-- `Layout::tick`: age every queued event, then either run the
hold-tap arbiter (when `waiting` is present) or pop and process the
front of the deque. -/
def tick (layers : Layers T) (st : LState T) :
    Option (LState T × CustomEvent T) :=
  let st1 : LState T := { st with deque := st.deque.map Stacked.tick }
  match st1.waiting with
  | some w =>
      match w.tick st1.deque with
      | none => none
      | some (act, w') =>
          let st2 : LState T := { st1 with waiting := some w' }
          match act with
          | .hold => waiting_into_hold layers st2
          | .tap => waiting_into_tap layers st2
          | .noOp => some (st2, .noEvent)
  | none =>
      match st1.deque with
      | [] => some (st1, .noEvent)
      | s :: rest => unstack layers { st1 with deque := rest } s

/-- `Layout::event`: push onto the deque (capacity 16); when full, the
wrapping push evicts the oldest entry, a waiting hold-tap is committed
as hold, and the evicted entry is processed through `unstack`. -/
def event (layers : Layers T) (st : LState T) (e : Event) :
    Option (LState T) :=
  if st.deque.length < 16 then
    some { st with deque := st.deque ++ [{ event := e, since := 0 }] }
  else
    match st.deque with
    | [] => some { st with deque := [{ event := e, since := 0 }] }
    | s :: rest =>
        match waiting_into_hold layers
            { st with deque := rest ++ [{ event := e, since := 0 }] } with
        | none => none
        | some (st1, _) =>
            match unstack layers st1 s with
            | none => none
            | some (st2, _) => some st2

end Layout

/-- One external operation on the layout engine. -/
inductive Op where
  | ev (e : Event)
  | tk
deriving DecidableEq, Repr

/-- Running a sequence of `event` / `tick` calls from a state,
propagating panics. -/
def Layout.runOps (layers : Layers T) (st : LState T) :
    List Op → Option (LState T)
  | [] => some st
  | .ev e :: rest =>
      match Layout.event layers st e with
      | none => none
      | some st' => Layout.runOps layers st' rest
  | .tk :: rest =>
      match Layout.tick layers st with
      | none => none
      | some (st', _) => Layout.runOps layers st' rest

end Keyberon

/-! ## Claim theorems -/

namespace Keyberon

theorem foldl_add_eq_add_sum (l : List Nat) (a : Nat) :
    l.foldl (· + ·) a = a + l.sum := by
  induction l generalizing a with
  | nil => simp
  | cons x xs ih => simp [List.foldl_cons, ih, List.sum_cons]; omega

/-- **C2**: `current_layer` returns `default_layer` when `states`
contains no `LayerModifier`; otherwise the first `LayerModifier`'s
value replaces the default layer and every subsequent one adds its
value.  The result does not depend on the layer table at all (no
clamping against the number of layers: `current_layer` takes no
`layers` argument in the embedding, mirroring the source, which only
reads `states` and `default_layer`). -/
theorem c2_current_layer {T : Type} (st : LState T) :
    (st.states.filterMap EState.get_layer = [] →
      Layout.current_layer st = st.default_layer)
    ∧ (∀ v rest, st.states.filterMap EState.get_layer = v :: rest →
      Layout.current_layer st = v + rest.sum) := by
  constructor
  · intro h
    simp [Layout.current_layer, h]
  · intro v rest h
    simp [Layout.current_layer, h, foldl_add_eq_add_sum]

/-- A state with layer modifiers 2 and 3 (and an interleaved normal
key), default layer 7. -/
def c2State : LState Nat :=
  { default_layer := 7,
    states := [.layerModifier 2 (0, 0), .normalKey 5 (0, 1),
               .layerModifier 3 (0, 2)],
    waiting := none,
    deque := [] }

/-- Witness for **C2** at a concrete state: the first modifier (2)
replaces the default layer 7 and the second (3) is added. -/
theorem c2_current_layer_witness : Layout.current_layer c2State = 5 := by
  have h := (c2_current_layer c2State).2 2 [3] rfl
  simpa using h

end Keyberon
namespace Keyberon

theorem do_action_deque {T : Type} (layers : Layers T) (st : LState T)
    (a : Action T) (coord : Nat × Nat) (delay : Nat) :
    ∀ st' cu, Layout.do_action layers st a coord delay = some (st', cu) →
      st'.deque = st.deque := by
  refine Layout.do_action.induct layers
    (fun st a coord delay => ∀ st' cu,
      Layout.do_action layers st a coord delay = some (st', cu) →
        st'.deque = st.deque)
    (fun st acts coord delay cu0 => ∀ st' cu,
      Layout.do_actions layers st acts coord delay cu0 = some (st', cu) →
        st'.deque = st.deque)
    ?_ ?_ ?_ ?_ ?_ ?_ ?_ ?_ ?_ ?_ ?_ ?_ ?_ ?_ st a coord delay
  · intro t st coord delay hw st' cu h
    rw [Layout.do_action.eq_def] at h
    simp [hw] at h
  · intro st coord delay hw st' cu h
    simp [Layout.do_action, hw] at h
    rw [← h.1]
  · intro st coord delay hw st' cu h
    simp [Layout.do_action, hw] at h
    rw [← h.1]
  · intro st coord delay hw timeout hold tp config thi st' cu h
    simp [Layout.do_action, hw] at h
    rw [← h.1]
  · intro st coord delay hw k st' cu h
    simp [Layout.do_action, hw] at h
    rw [← h.1]
  · intro st coord delay hw ks st' cu h
    simp [Layout.do_action, hw] at h
    rw [← h.1]
  · intro st coord delay hw acts ih st' cu h
    simp [Layout.do_action, hw] at h
    exact ih st' cu h
  · intro st coord delay hw v st' cu h
    simp [Layout.do_action, hw] at h
    rw [← h.1]
  · intro st coord delay hw v st' cu h
    simp [Layout.do_action, hw, Layout.set_default_layer] at h
    split at h
    · rw [← h.1]
    · rw [← h.1]
  · intro st coord delay hw v p hp st' cu h
    simp [Layout.do_action, hw] at h
    split at h <;> (simp at h; rw [← h.1])
  · intro st coord delay hw v p hp st' cu h
    simp [Layout.do_action, hw] at h
    split at h <;> (simp at h; rw [← h.1])
  · intro st coord delay cu0 st' cu h
    simp [Layout.do_actions] at h
    rw [← h.1]
  · intro st coord delay cu0 a rest hnone ih st' cu h
    simp [Layout.do_actions, hnone] at h
  · intro st coord delay cu0 a rest stm cm hsome ih1 ih2 st' cu h
    simp [Layout.do_actions, hsome] at h
    have e1 := ih1 stm cm hsome
    have e2 := ih2 st' cu h
    rw [e2, e1]

end Keyberon
namespace Keyberon

theorem unstack_deque {T : Type} (layers : Layers T) (st : LState T) (s : Stacked) :
    ∀ st' cu, Layout.unstack layers st s = some (st', cu) → st'.deque = st.deque := by
  intro st' cu h
  cases he : s.event with
  | release i j =>
      simp [Layout.unstack, he] at h
      rw [← h.1]
  | press i j =>
      simp [Layout.unstack, he] at h
      exact do_action_deque layers st _ (i, j) s.since st' cu h

theorem waiting_into_hold_deque {T : Type} (layers : Layers T) (st : LState T) :
    ∀ st' cu, Layout.waiting_into_hold layers st = some (st', cu) →
      st'.deque = st.deque := by
  intro st' cu h
  cases hw : st.waiting with
  | none =>
      simp [Layout.waiting_into_hold, hw] at h
      rw [← h.1]
  | some w =>
      simp [Layout.waiting_into_hold, hw] at h
      have h2 := do_action_deque layers _ _ _ _ st' cu h
      simpa using h2

theorem waiting_into_tap_deque {T : Type} (layers : Layers T) (st : LState T) :
    ∀ st' cu, Layout.waiting_into_tap layers st = some (st', cu) →
      st'.deque = st.deque := by
  intro st' cu h
  cases hw : st.waiting with
  | none =>
      simp [Layout.waiting_into_tap, hw] at h
      rw [← h.1]
  | some w =>
      simp [Layout.waiting_into_tap, hw] at h
      have h2 := do_action_deque layers _ _ _ _ st' cu h
      simpa using h2

theorem tick_deque_le {T : Type} (layers : Layers T) (st : LState T)
    (h16 : st.deque.length ≤ 16) :
    ∀ st' cu, Layout.tick layers st = some (st', cu) → st'.deque.length ≤ 16 := by
  intro st' cu h
  simp [Layout.tick] at h
  cases hw : st.waiting with
  | some w =>
      simp [hw] at h
      cases hwt : w.tick (st.deque.map Stacked.tick) with
      | none => simp [hwt] at h
      | some p =>
          obtain ⟨act, w'⟩ := p
          simp [hwt] at h
          cases act with
          | hold =>
              simp at h
              have := waiting_into_hold_deque layers _ st' cu h
              simp [this, h16]
          | tap =>
              simp at h
              have := waiting_into_tap_deque layers _ st' cu h
              simp [this, h16]
          | noOp =>
              simp at h
              rw [← h.1]
              simp [h16]
  | none =>
      simp [hw] at h
      cases hd : st.deque with
      | nil =>
          simp [hd] at h
          rw [← h.1]
          simp [hd]
      | cons d rest =>
          simp [hd] at h
          have := unstack_deque layers _ _ st' cu h
          simp [this]
          have : rest.length + 1 ≤ 16 := by simpa [hd] using h16
          omega

theorem event_deque_le {T : Type} (layers : Layers T) (st : LState T) (e : Event)
    (h16 : st.deque.length ≤ 16) :
    ∀ st', Layout.event layers st e = some st' → st'.deque.length ≤ 16 := by
  intro st' h
  rw [Layout.event] at h
  split at h
  · rename_i hlt
    simp at h
    rw [← h]
    simp
    omega
  · rename_i hge
    split at h
    · rename_i hnil
      simp at h
      rw [← h]
      simp
    · rename_i s rest hcons
      cases hh : Layout.waiting_into_hold layers
          { st with deque := rest ++ [{ event := e, since := 0 }] } with
      | none => rw [hh] at h; simp at h
      | some p =>
          obtain ⟨st1, cu1⟩ := p
          rw [hh] at h
          dsimp only at h
          cases hu : Layout.unstack layers st1 s with
          | none => rw [hu] at h; simp at h
          | some q =>
              obtain ⟨st2, cu2⟩ := q
              rw [hu] at h
              simp at h
              have e1 := waiting_into_hold_deque layers _ st1 cu1 hh
              have e2 := unstack_deque layers st1 s st2 cu2 hu
              rw [← h, e2, e1]
              simp at e1 ⊢
              have : st.deque.length = 16 := by omega
              have : rest.length + 1 = 16 := by
                rw [hcons] at this
                simpa using this
              omega

theorem runOps_deque_le {T : Type} (layers : Layers T) (st : LState T)
    (ops : List Op) (h16 : st.deque.length ≤ 16) :
    ∀ st', Layout.runOps layers st ops = some st' → st'.deque.length ≤ 16 := by
  induction ops generalizing st with
  | nil =>
      intro st' h
      simp [Layout.runOps] at h
      rw [← h]
      exact h16
  | cons op rest ih =>
      intro st' h
      cases op with
      | ev e =>
          rw [Layout.runOps] at h
          cases he : Layout.event layers st e with
          | none => rw [he] at h; simp at h
          | some st1 =>
              rw [he] at h
              exact ih st1 (event_deque_le layers st e h16 st1 he) st' h
      | tk =>
          rw [Layout.runOps] at h
          cases ht : Layout.tick layers st with
          | none => rw [ht] at h; simp at h
          | some p =>
              rw [ht] at h
              exact ih p.1 (tick_deque_le layers st h16 p.1 p.2 (by rw [ht])) st' h

end Keyberon
namespace Keyberon

/-- **C5**: `event(e)` appends `e` with elapsed count 0 when the deque
holds fewer than 16 entries (changing nothing else); on a full deque it
evicts the oldest entry, first commits any waiting hold-tap as hold,
then processes the evicted entry through `unstack`; and along any run
from the initial state the deque never exceeds 16 entries. -/
theorem c5_event_deque {T : Type} (layers : Layers T) (st : LState T) (e : Event) :
    (st.deque.length < 16 →
      Layout.event layers st e =
        some { st with deque := st.deque ++ [{ event := e, since := 0 }] })
    ∧ (∀ s rest, st.deque = s :: rest → st.deque.length = 16 →
      Layout.event layers st e =
        match Layout.waiting_into_hold layers
            { st with deque := rest ++ [{ event := e, since := 0 }] } with
        | none => none
        | some (st1, _) =>
            match Layout.unstack layers st1 s with
            | none => none
            | some (st2, _) => some st2)
    ∧ (∀ ops st', Layout.runOps layers (LState.init T) ops = some st' →
        st'.deque.length ≤ 16) := by
  refine ⟨?_, ?_, ?_⟩
  · intro hlt
    rw [Layout.event]
    simp [hlt]
  · intro s rest hcons hlen
    have hn : ¬ st.deque.length < 16 := by omega
    rw [Layout.event, if_neg hn, hcons]
  · intro ops st' h
    exact runOps_deque_le layers (LState.init T) ops (by simp [LState.init]) st' h

/-- Witness for **C5**: a fresh press is appended to an empty deque with
elapsed count 0, and a 20-operation burst of presses from the initial
state leaves at most 16 queued events. -/
theorem c5_event_deque_witness :
    Layout.event ([] : Layers Nat) (LState.init Nat) (.press 0 0) =
      some { LState.init Nat with deque := [{ event := .press 0 0, since := 0 }] }
    ∧ ∀ st', Layout.runOps ([] : Layers Nat) (LState.init Nat)
        (List.replicate 20 (Op.ev (.press 0 0))) = some st' →
          st'.deque.length ≤ 16 :=
  ⟨(c5_event_deque [] (LState.init Nat) (.press 0 0)).1 (by decide),
   fun st' h => (c5_event_deque ([] : Layers Nat) (LState.init Nat) (.press 0 0)).2.2
     (List.replicate 20 (Op.ev (.press 0 0))) st' h⟩

/-- A hold-tap layout used to refute **C4**: key (0,0) is a hold-tap
with hold `KeyCode 1` and tap `KeyCode 2` (`Default` config), key (0,1)
is `KeyCode 9`. -/
def c4Layers : Layers Nat :=
  [[[.holdTap 3 (.keyCode 1) (.keyCode 2) .default 0, .keyCode 9]]]

/-- Counterexample to **C4**: press the hold-tap key and tick (a waiting
record is now present), press another key (deque not full, so nothing
is forced), release the hold-tap key, tick — the arbiter resolves the
hold-tap as **Tap** (key code 2, the tap branch, is active; the hold
branch 1 is not), even though a press arrived while `waiting` was
present. -/
theorem c4_counterexample :
    ((Layout.runOps c4Layers (LState.init Nat)
        [.ev (.press 0 0), .tk]).map fun st => st.waiting.isSome) = some true
    ∧ ((Layout.runOps c4Layers (LState.init Nat)
        [.ev (.press 0 0), .tk, .ev (.press 0 1), .ev (.release 0 0),
         .tk]).map Layout.keycodes) = some [2] :=
  ⟨rfl, rfl⟩

/-- **C4 amended**: a press received while a hold-tap is waiting forces
the hold resolution only when the deque overflows: with a non-full
deque, `event` merely enqueues the press and leaves `waiting`
unchanged (arbitration continues and, as the counterexample shows, can
still resolve as Tap); with a full deque, `event` commits the waiting
hold-tap as hold (running `do_action` on the hold branch with `waiting`
cleared) before the evicted event is processed through `unstack`. -/
theorem c4_amended {T : Type} (layers : Layers T) (st : LState T) (e : Event)
    (w : WaitingState T) (hw : st.waiting = some w) :
    (st.deque.length < 16 →
      ∃ st', Layout.event layers st e = some st' ∧ st'.waiting = some w ∧
        st'.deque = st.deque ++ [{ event := e, since := 0 }])
    ∧ (¬ st.deque.length < 16 → ∀ s rest, st.deque = s :: rest →
      Layout.event layers st e =
        match Layout.do_action layers
            { st with deque := rest ++ [Stacked.mk e 0], waiting := none }
            w.hold w.coord 0 with
        | none => none
        | some (st1, _) =>
            match Layout.unstack layers st1 s with
            | none => none
            | some (st2, _) => some st2) := by
  constructor
  · intro hlt
    rw [Layout.event]
    simp [hlt, hw]
  · intro hge s rest hcons
    rw [Layout.event, if_neg hge, hcons]
    simp only [Layout.waiting_into_hold]
    simp [hw]

end Keyberon
namespace Keyberon

/-- A full-deque state with a waiting hold-tap, for the C4 witness. -/
def c4FullState : LState Nat :=
  { default_layer := 0,
    states := [],
    waiting := some ⟨(0, 0), 5, 0, .keyCode 1, .keyCode 2, .default⟩,
    deque := List.replicate 16 (Stacked.mk (.press 9 9) 0) }

/-- A one-key layout for the C4 witness. -/
def c4WitnessLayers : Layers Nat := [[[.keyCode 7, .keyCode 8]]]

/-- Witness for **C4 amended** on a full deque: the waiting hold-tap is
committed as hold (key code 1 becomes active and `waiting` is cleared)
before the evicted press is unstacked. -/
theorem c4_amended_witness :
    (Layout.event c4WitnessLayers c4FullState (.press 0 1)).map
      (fun st => (Layout.keycodes st, st.waiting.isSome, st.deque.length)) =
      some ([1], false, 16) := by
  have h := (c4_amended c4WitnessLayers c4FullState (.press 0 1)
      ⟨(0, 0), 5, 0, .keyCode 1, .keyCode 2, .default⟩ rfl).2
      (by decide) (Stacked.mk (.press 9 9) 0)
      (List.replicate 15 (Stacked.mk (.press 9 9) 0)) rfl
  rw [h]
  rfl

theorem is_corresponding_release_set_timeout {T : Type} (w : WaitingState T)
    (t : Nat) (e : Event) :
    ({ w with timeout := t } : WaitingState T).is_corresponding_release e =
      w.is_corresponding_release e := rfl

/-- The hold-tap arbitration rule as the specification words it
(claim-side definition): decremented timeout `t`, config pre-checks,
then the release rule with the untruncated subtraction `delay - since`,
then the timeout rule. -/
def specArbiter {T : Type} (w : WaitingState T) (dq : List Stacked) :
    WaitingAction :=
  let t := w.timeout - 1
  if w.config = .holdOnOtherKeyPress ∧ dq.any (fun s => s.event.is_press) = true
  then .hold
  else if w.config = .permissiveHold ∧ permissiveHoldCheck dq = true then .hold
  else
    match dq.find? (fun s => w.is_corresponding_release s.event) with
    | some s => if w.delay - s.since ≤ t then .tap else .hold
    | none => if t = 0 then .hold else .noOp

theorem releaseOrTimeout_eq_spec {T : Type} (w' : WaitingState T)
    (dq : List Stacked)
    (hnu : ∀ s ∈ dq, w'.is_corresponding_release s.event = true →
      s.since ≤ w'.delay) :
    w'.releaseOrTimeout dq =
      some ((match dq.find? (fun s => w'.is_corresponding_release s.event) with
             | some s => if w'.delay - s.since ≤ w'.timeout then WaitingAction.tap
                 else WaitingAction.hold
             | none => if w'.timeout = 0 then WaitingAction.hold
                 else WaitingAction.noOp), w') := by
  cases hf : dq.find? (fun s => w'.is_corresponding_release s.event) with
  | none =>
      simp only [WaitingState.releaseOrTimeout, hf]
      split <;> rfl
  | some s =>
      have hmem : s ∈ dq := List.mem_of_find?_eq_some hf
      have hpred : w'.is_corresponding_release s.event = true := by
        have h2 := List.find?_some hf
        simpa using h2
      have hle : s.since ≤ w'.delay := hnu s hmem hpred
      have hcs : checkedSub w'.delay s.since = some (w'.delay - s.since) := by
        simp [checkedSub, hle]
      simp only [WaitingState.releaseOrTimeout, hf, hcs]
      split <;> rfl

end Keyberon
namespace Keyberon

/-- **C1**: while a hold-tap is waiting, a `tick` first decrements the
waiting timeout (kept in the surviving record), then resolves per the
config pre-check, the release rule (Tap iff `timeout ≥ delay − since`),
or the timeout rule, as `specArbiter` states; on Hold or Tap the
waiting record is cleared and the chosen branch runs through
`do_action` at the waiting coordinate with delay 0.  The hypothesis
rules out the `u16` underflow of `delay - since` (see the C3 analysis:
without it the arbiter panics). -/
theorem c1_arbiter {T : Type} (layers : Layers T) (st : LState T)
    (w : WaitingState T) (hw : st.waiting = some w)
    (hnu : ∀ s ∈ st.deque.map Stacked.tick,
      w.is_corresponding_release s.event = true → s.since ≤ w.delay) :
    WaitingState.tick w (st.deque.map Stacked.tick) =
      some (specArbiter w (st.deque.map Stacked.tick),
        { w with timeout := w.timeout - 1 })
    ∧ Layout.tick layers st =
        match specArbiter w (st.deque.map Stacked.tick) with
        | .hold => Layout.do_action layers
            { st with deque := st.deque.map Stacked.tick, waiting := none }
            w.hold w.coord 0
        | .tap => Layout.do_action layers
            { st with deque := st.deque.map Stacked.tick, waiting := none }
            w.tap w.coord 0
        | .noOp => some
            ({ st with
                deque := st.deque.map Stacked.tick,
                waiting := some { w with timeout := w.timeout - 1 } },
              .noEvent) := by
  have h1 : WaitingState.tick w (st.deque.map Stacked.tick) =
      some (specArbiter w (st.deque.map Stacked.tick),
        { w with timeout := w.timeout - 1 }) := by
    obtain ⟨wc, wt, wd, wh, wtp, wcfg⟩ := w
    rw [WaitingState.tick]
    dsimp only
    cases wcfg with
    | default =>
        dsimp only
        rw [releaseOrTimeout_eq_spec ⟨wc, wt - 1, wd, wh, wtp, .default⟩ _
          (fun s hs hp => hnu s hs hp)]
        simp [specArbiter, WaitingState.is_corresponding_release]
    | holdOnOtherKeyPress =>
        by_cases hany : ((st.deque.map Stacked.tick).any
            fun s => s.event.is_press) = true
        · simp [hany, specArbiter]
        · simp only [Bool.not_eq_true] at hany
          rw [hany]
          dsimp only
          rw [releaseOrTimeout_eq_spec ⟨wc, wt - 1, wd, wh, wtp, .holdOnOtherKeyPress⟩ _
            (fun s hs hp => hnu s hs hp)]
          simp [specArbiter, WaitingState.is_corresponding_release, hany]
    | permissiveHold =>
        by_cases hperm : permissiveHoldCheck (st.deque.map Stacked.tick) = true
        · simp [hperm, specArbiter]
        · simp only [Bool.not_eq_true] at hperm
          rw [hperm]
          dsimp only
          rw [releaseOrTimeout_eq_spec ⟨wc, wt - 1, wd, wh, wtp, .permissiveHold⟩ _
            (fun s hs hp => hnu s hs hp)]
          simp [specArbiter, WaitingState.is_corresponding_release, hperm]
  refine ⟨h1, ?_⟩
  rw [Layout.tick]
  dsimp only
  rw [hw]
  dsimp only
  rw [h1]
  dsimp only
  cases specArbiter w (st.deque.map Stacked.tick) with
  | hold =>
      rw [Layout.waiting_into_hold]
  | tap =>
      rw [Layout.waiting_into_tap]
  | noOp => rfl


end Keyberon
namespace Keyberon

/-- A state with a waiting hold-tap (timeout 5, delay 3) and the
corresponding release queued with elapsed count 1, for the C1
witness. -/
def c1State : LState Nat :=
  { default_layer := 0,
    states := [],
    waiting := some ⟨(0, 0), 5, 3, .keyCode 1, .keyCode 2, .default⟩,
    deque := [Stacked.mk (.release 0 0) 1] }

/-- Witness for **C1**: ticking `c1State` finds the queued release
(aged to `since = 2`), and as `delay − since = 1 ≤ 4 = timeout` the
hold-tap resolves as Tap: the tap branch key code 2 is executed at the
waiting coordinate. -/
theorem c1_arbiter_witness :
    WaitingState.tick
        (⟨(0, 0), 5, 3, .keyCode 1, .keyCode 2, .default⟩ : WaitingState Nat)
        [Stacked.mk (.release 0 0) 2] =
      some (.tap, ⟨(0, 0), 4, 3, .keyCode 1, .keyCode 2, .default⟩)
    ∧ Layout.tick ([] : Layers Nat) c1State =
      some ({ default_layer := 0,
              states := [.normalKey 2 (0, 0)],
              waiting := none,
              deque := [Stacked.mk (.release 0 0) 2] }, .noEvent) := by
  have h := c1_arbiter ([] : Layers Nat) c1State
    ⟨(0, 0), 5, 3, .keyCode 1, .keyCode 2, .default⟩ rfl (by decide)
  exact ⟨h.1.trans (by rfl), h.2.trans (by rfl)⟩

end Keyberon
namespace Keyberon

mutual

/-- No `HoldTap` occurs anywhere in an action tree. -/
def Action.noHoldTap {T : Type} : Action T → Bool
  | .holdTap _ _ _ _ _ => false
  | .multipleActions acts => Action.noHoldTapList acts
  | _ => true

/-- `noHoldTap` over a list of actions. -/
def Action.noHoldTapList {T : Type} : List (Action T) → Bool
  | [] => true
  | a :: rest => a.noHoldTap && Action.noHoldTapList rest

end

/-- Every action of a layer table is `HoldTap`-free. -/
def layersNoHoldTap {T : Type} (layers : Layers T) : Bool :=
  layers.all fun rows => rows.all fun row => row.all Action.noHoldTap

theorem layerLookup_noHoldTap {T : Type} (layers : Layers T)
    (hl : layersNoHoldTap layers = true) (coord : Nat × Nat) (layer : Nat)
    (a : Action T) (h : Layout.layerLookup layers coord layer = some a) :
    a.noHoldTap = true := by
  rw [Layout.layerLookup] at h
  rcases Option.bind_eq_some.mp h with ⟨l, hl1, h2⟩
  rcases Option.bind_eq_some.mp h2 with ⟨r, hr1, h3⟩
  have hml : l ∈ layers := List.get?_mem hl1
  have hmr : r ∈ l := List.get?_mem hr1
  have hma : a ∈ r := List.get?_mem h3
  simp only [layersNoHoldTap, List.all_eq_true] at hl
  exact hl l hml r hmr a hma

theorem press_as_action_noHoldTap {T : Type} (layers : Layers T)
    (hl : layersNoHoldTap layers = true) (dl : Nat) (coord : Nat × Nat)
    (layer : Nat) :
    (Layout.press_as_action layers dl coord layer).noHoldTap = true := by
  cases h : Layout.layerLookup layers coord layer with
  | none => simp [Layout.press_as_action, h, Action.noHoldTap]
  | some a =>
      have hb := layerLookup_noHoldTap layers hl coord layer a h
      cases a with
      | trans =>
          by_cases hd : layer = dl
          · subst hd
            simp [Layout.press_as_action, h, Action.noHoldTap]
          · cases h2 : Layout.layerLookup layers coord dl with
            | none => simp [Layout.press_as_action, h, hd, h2, Action.noHoldTap]
            | some b =>
                have hb2 := layerLookup_noHoldTap layers hl coord dl b h2
                cases b <;>
                  simp_all [Layout.press_as_action, h, hd, h2, Action.noHoldTap]
      | noOp => simp [Layout.press_as_action, h, Action.noHoldTap]
      | keyCode k => simpa [Layout.press_as_action, h] using hb
      | multipleKeyCodes ks => simpa [Layout.press_as_action, h] using hb
      | multipleActions acts => simpa [Layout.press_as_action, h] using hb
      | layer v => simpa [Layout.press_as_action, h] using hb
      | defaultLayer v => simpa [Layout.press_as_action, h] using hb
      | holdTap t ho ta cf i => simpa [Layout.press_as_action, h] using hb
      | custom v => simpa [Layout.press_as_action, h] using hb

theorem do_action_noHoldTap {T : Type} (layers : Layers T) (st : LState T)
    (a : Action T) (coord : Nat × Nat) (delay : Nat) :
    st.waiting = none → a.noHoldTap = true →
      ∃ st' cu, Layout.do_action layers st a coord delay = some (st', cu) ∧
        st'.waiting = none := by
  refine Layout.do_action.induct layers
    (fun st a coord delay => st.waiting = none → a.noHoldTap = true →
      ∃ st' cu, Layout.do_action layers st a coord delay = some (st', cu) ∧
        st'.waiting = none)
    (fun st acts coord delay cu0 => st.waiting = none →
      Action.noHoldTapList acts = true →
      ∃ st' cu, Layout.do_actions layers st acts coord delay cu0 =
          some (st', cu) ∧ st'.waiting = none)
    ?_ ?_ ?_ ?_ ?_ ?_ ?_ ?_ ?_ ?_ ?_ ?_ ?_ ?_ st a coord delay
  · intro t st coord delay hsome hnone hnht
    rw [hnone] at hsome
    simp at hsome
  · intro st coord delay hw hnone hnht
    exact ⟨st, .noEvent, by simp [Layout.do_action, hnone], hnone⟩
  · intro st coord delay hw hnone hnht
    exact ⟨st, .noEvent, by simp [Layout.do_action, hnone], hnone⟩
  · intro st coord delay hw timeout hold tp config i hnone hnht
    simp [Action.noHoldTap] at hnht
  · intro st coord delay hw k hnone hnht
    refine ⟨{ st with states := (Layout.statesPush st.states (.normalKey k coord)).1 }, .noEvent, ?_, hnone⟩
    simp [Layout.do_action, hnone]
  · intro st coord delay hw ks hnone hnht
    refine ⟨{ st with states := ks.foldl (fun acc k => (Layout.statesPush acc (.normalKey k coord)).1) st.states }, .noEvent, ?_, hnone⟩
    simp [Layout.do_action, hnone]
  · intro st coord delay hw acts ih hnone hnht
    simp only [Action.noHoldTap] at hnht
    obtain ⟨st', cu, hdo, hwn⟩ := ih hnone hnht
    exact ⟨st', cu, by simp [Layout.do_action, hnone, hdo], hwn⟩
  · intro st coord delay hw v hnone hnht
    refine ⟨{ st with states := (Layout.statesPush st.states (.layerModifier v coord)).1 }, .noEvent, ?_, hnone⟩
    simp [Layout.do_action, hnone]
  · intro st coord delay hw v hnone hnht
    refine ⟨Layout.set_default_layer layers st v, .noEvent, ?_, ?_⟩
    · simp [Layout.do_action, hnone]
    · rw [Layout.set_default_layer]
      split
      · exact hnone
      · exact hnone
  · intro st coord delay hw v p hp hnone hnht
    refine ⟨{ st with states := (Layout.statesPush st.states (.custom v coord)).1 }, .press v, ?_, hnone⟩
    rw [Layout.do_action.eq_def]
    simp [hnone, hp]
    exact hp
  · intro st coord delay hw v p hp hnone hnht
    refine ⟨{ st with states := (Layout.statesPush st.states (.custom v coord)).1 }, .noEvent, ?_, hnone⟩
    rw [Layout.do_action.eq_def]
    simp only [Bool.not_eq_true] at hp
    simp [hnone, hp]
    exact hp
  · intro st coord delay cu0 hnone hnht
    exact ⟨st, cu0, by simp [Layout.do_actions], hnone⟩
  · intro st coord delay cu0 a rest hnone ih hn hnht
    simp only [Action.noHoldTapList, Bool.and_eq_true] at hnht
    obtain ⟨st', cu, hdo, hwn⟩ := ih hn hnht.1
    rw [hnone] at hdo
    simp at hdo
  · intro st coord delay cu0 a rest stm cm hsome ih1 ih2 hn hnht
    simp only [Action.noHoldTapList, Bool.and_eq_true] at hnht
    obtain ⟨st', cu, hdo, hwn⟩ := ih1 hn hnht.1
    rw [hsome] at hdo
    simp at hdo
    obtain ⟨hst, hcu⟩ := hdo
    subst hst
    obtain ⟨stf, cuf, hdo2, hwf⟩ := ih2 hwn hnht.2
    refine ⟨stf, cuf, ?_, hwf⟩
    rw [Layout.do_actions, hsome]
    exact hdo2

end Keyberon
namespace Keyberon

theorem unstack_noHoldTap {T : Type} (layers : Layers T)
    (hl : layersNoHoldTap layers = true) (st : LState T) (s : Stacked)
    (hnone : st.waiting = none) :
    ∃ st' cu, Layout.unstack layers st s = some (st', cu) ∧
      st'.waiting = none := by
  cases he : s.event with
  | release i j =>
      refine ⟨{ st with states := (Layout.map_retain_release (i, j) [] st.states .noEvent).1 }, (Layout.map_retain_release (i, j) [] st.states .noEvent).2, ?_, hnone⟩
      simp [Layout.unstack, he]
  | press i j =>
      have h := do_action_noHoldTap layers st
        (Layout.press_as_action layers st.default_layer (i, j)
          (Layout.current_layer st)) (i, j) s.since hnone
        (press_as_action_noHoldTap layers hl st.default_layer (i, j)
          (Layout.current_layer st))
      obtain ⟨st', cu, hdo, hwn⟩ := h
      exact ⟨st', cu, by simp [Layout.unstack, he, hdo], hwn⟩

theorem tick_noHoldTap {T : Type} (layers : Layers T)
    (hl : layersNoHoldTap layers = true) (st : LState T)
    (hnone : st.waiting = none) :
    ∃ st' cu, Layout.tick layers st = some (st', cu) ∧ st'.waiting = none := by
  cases hd : st.deque with
  | nil =>
      refine ⟨{ st with waiting := none, deque := ([] : List Stacked) }, .noEvent, ?_, rfl⟩
      rw [Layout.tick]
      dsimp only
      rw [hnone]
      dsimp only
      rw [hd]
      rfl
  | cons d rest =>
      have h := unstack_noHoldTap layers hl
        { st with waiting := none, deque := rest.map Stacked.tick } d.tick rfl
      obtain ⟨st', cu, hdo, hwn⟩ := h
      refine ⟨st', cu, ?_, hwn⟩
      rw [Layout.tick]
      dsimp only
      rw [hnone]
      dsimp only
      rw [hd]
      dsimp only [List.map_cons]
      exact hdo

theorem event_noHoldTap {T : Type} (layers : Layers T)
    (hl : layersNoHoldTap layers = true) (st : LState T) (e : Event)
    (hnone : st.waiting = none) :
    ∃ st', Layout.event layers st e = some st' ∧ st'.waiting = none := by
  rw [Layout.event]
  split
  · exact ⟨_, rfl, hnone⟩
  · split
    · exact ⟨_, rfl, hnone⟩
    · rename_i s rest hcons
      have hwih : Layout.waiting_into_hold layers
          { st with deque := rest ++ [{ event := e, since := 0 }] } =
          some ({ st with deque := rest ++ [{ event := e, since := 0 }] },
            .noEvent) := by
        rw [Layout.waiting_into_hold]
        dsimp only
        rw [hnone]
      rw [hwih]
      have h := unstack_noHoldTap layers hl
        { st with deque := rest ++ [{ event := e, since := 0 }] } s
        (by simpa using hnone)
      obtain ⟨st', cu, hdo, hwn⟩ := h
      dsimp only
      rw [hdo]
      exact ⟨st', rfl, hwn⟩

theorem runOps_noHoldTap {T : Type} (layers : Layers T)
    (hl : layersNoHoldTap layers = true) (st : LState T) (ops : List Op)
    (hnone : st.waiting = none) :
    ∃ st', Layout.runOps layers st ops = some st' ∧ st'.waiting = none := by
  induction ops generalizing st with
  | nil => exact ⟨st, rfl, hnone⟩
  | cons op rest ih =>
      cases op with
      | ev e =>
          obtain ⟨st1, he, hw1⟩ := event_noHoldTap layers hl st e hnone
          obtain ⟨st', hr, hw'⟩ := ih st1 hw1
          refine ⟨st', ?_, hw'⟩
          rw [Layout.runOps, he]
          exact hr
      | tk =>
          obtain ⟨st1, cu, ht, hw1⟩ := tick_noHoldTap layers hl st hnone
          obtain ⟨st', hr, hw'⟩ := ih st1 hw1
          refine ⟨st', ?_, hw'⟩
          rw [Layout.runOps, ht]
          exact hr

/-- A layout whose only key is a `MultipleActions` containing a
`HoldTap` followed by a `NoOp`, used to refute **C3**. -/
def c3Layers : Layers Nat :=
  [[[.multipleActions [.holdTap 5 (.keyCode 1) (.keyCode 2) .default 0, .noOp]]]]

/-- Counterexample to **C3**: pressing the key and ticking panics.  The
`MultipleActions` loop first executes the inner `HoldTap` (which sets
`waiting`), then re-enters `do_action` for the following `NoOp`, whose
`assert!(self.waiting.is_none())` now fails (`none` models the
panic). -/
theorem c3_counterexample :
    Layout.runOps c3Layers (LState.init Nat) [.ev (.press 0 0), .tk] =
      none := rfl

/-- Even a plain top-level `HoldTap` can panic: when a hold-tap press
and its release are enqueued within the same inter-tick window, the
press is popped with `since = 1` (so `delay = 1`), and at the next tick
the queued release has aged to `since = 2`, making the arbiter evaluate
the `u16` subtraction `delay - since = 1 - 2`, which underflows.  This
is why the amended **C3** must exclude `HoldTap` entirely. -/
theorem holdTap_underflow :
    Layout.runOps [[[.holdTap 5 (.keyCode 1) (.keyCode 2) .default 0]]]
      (LState.init Nat)
      [.ev (.press 0 0), .ev (.release 0 0), .tk, .tk] = none := rfl

/-- **C3 amended**: for layouts containing no `HoldTap` action at all,
no sequence of `event` and `tick` calls panics: every `do_action`
invocation sees `waiting = none` (the assertion holds) and the
arbiter's subtraction is never executed (no waiting record is ever
created).  The restriction is forced: `c3_counterexample` shows the
assertion fails for a `HoldTap` inside `MultipleActions`, and
`holdTap_underflow` shows that even a top-level `HoldTap` admits a
trace on which `delay - since` underflows. -/
theorem c3_no_panic_no_holdtap {T : Type} (layers : Layers T)
    (hl : layersNoHoldTap layers = true) (ops : List Op) :
    ∃ st', Layout.runOps layers (LState.init T) ops = some st' ∧
      st'.waiting = none :=
  runOps_noHoldTap layers hl (LState.init T) ops rfl

/-- Witness for **C3 amended**: a `HoldTap`-free layout with a
`MultipleActions` runs a press / tick / release / tick sequence without
panicking. -/
theorem c3_no_panic_no_holdtap_witness :
    ∃ st', Layout.runOps [[[.multipleActions [.keyCode 1, .layer 1], .keyCode 3]]]
        (LState.init Nat)
        [.ev (.press 0 0), .tk, .ev (.release 0 0), .tk, .tk] = some st' ∧
      st'.waiting = none :=
  c3_no_panic_no_holdtap
    [[[.multipleActions [.keyCode 1, .layer 1], .keyCode 3]]] (by decide)
    [.ev (.press 0 0), .tk, .ev (.release 0 0), .tk, .tk]

end Keyberon
namespace Keyberon

theorem moveLastToFront_perm {α : Type} (l : List α) :
    (Layout.moveLastToFront l).Perm l := by
  cases l with
  | nil => exact List.Perm.refl _
  | cons x xs =>
      have hne : x :: xs ≠ [] := by simp
      have h := List.dropLast_append_getLast hne
      have h2 : ((x :: xs).getLast hne :: (x :: xs).dropLast).Perm
          ((x :: xs).dropLast ++ [(x :: xs).getLast hne]) :=
        ((x :: xs).dropLast.perm_append_singleton _).symm
      rw [h] at h2
      exact h2

/-- The values of the `Custom` entries at coordinate `c` in a state
list: exactly the entries whose removal funnels a `Release` through the
D-channel. -/
def matchingCustoms {T : Type} (c : Nat × Nat) (l : List (EState T)) :
    List T :=
  l.filterMap fun x => match x with
    | .custom v d => if d = c then some v else none
    | _ => none

theorem matchingCustoms_perm {T : Type} (c : Nat × Nat)
    {l1 l2 : List (EState T)} (h : l1.Perm l2) :
    (matchingCustoms c l1).Perm (matchingCustoms c l2) := h.filterMap _

theorem map_retain_go_remove {T : Type} (c : Nat × Nat) (fuel : Nat)
    (processed rest : List (EState T)) (s : EState T) (cu : CustomEvent T)
    (hc : s.coord = c) :
    Layout.map_retain_release_go c (fuel + 1) processed (s :: rest) cu =
      Layout.map_retain_release_go c fuel processed (Layout.moveLastToFront rest)
        (match s with
         | .custom v _ => cu.update (.release v)
         | _ => cu) := by
  cases s with
  | normalKey k d =>
      simp only [EState.coord] at hc
      rw [Layout.map_retain_release_go]
      simp [EState.release, hc]
  | layerModifier k d =>
      simp only [EState.coord] at hc
      rw [Layout.map_retain_release_go]
      simp [EState.release, hc]
  | custom v d =>
      simp only [EState.coord] at hc
      rw [Layout.map_retain_release_go]
      simp [EState.release, hc]

theorem map_retain_go_keep {T : Type} (c : Nat × Nat) (fuel : Nat)
    (processed rest : List (EState T)) (s : EState T) (cu : CustomEvent T)
    (hc : ¬ s.coord = c) :
    Layout.map_retain_release_go c (fuel + 1) processed (s :: rest) cu =
      Layout.map_retain_release_go c fuel (processed ++ [s]) rest cu := by
  cases s with
  | normalKey k d =>
      simp only [EState.coord] at hc
      rw [Layout.map_retain_release_go]
      simp [EState.release, hc]
  | layerModifier k d =>
      simp only [EState.coord] at hc
      rw [Layout.map_retain_release_go]
      simp [EState.release, hc]
  | custom v d =>
      simp only [EState.coord] at hc
      rw [Layout.map_retain_release_go]
      simp [EState.release, hc]

theorem map_retain_release_go_spec {T : Type} (c : Nat × Nat) :
    ∀ (fuel : Nat) (remaining processed : List (EState T)) (cu : CustomEvent T),
      remaining.length ≤ fuel →
      ((Layout.map_retain_release_go c fuel processed remaining cu).1.Perm
        (processed ++ remaining.filter fun x => !decide (x.coord = c)))
      ∧ (matchingCustoms c remaining = [] →
          (Layout.map_retain_release_go c fuel processed remaining cu).2 = cu)
      ∧ (∀ v, cu = .release v →
          (Layout.map_retain_release_go c fuel processed remaining cu).2 =
            .release v)
      ∧ ((cu = .noEvent ∨ ∃ p, cu = .press p) →
          matchingCustoms c remaining ≠ [] →
          ∃ v, v ∈ matchingCustoms c remaining ∧
            (Layout.map_retain_release_go c fuel processed remaining cu).2 =
              .release v) := by
  intro fuel
  induction fuel with
  | zero =>
      intro remaining processed cu hlen
      have hnil : remaining = [] := List.eq_nil_of_length_eq_zero (by omega)
      subst hnil
      refine ⟨by simp [Layout.map_retain_release_go], fun _ => rfl,
        fun v hv => by rw [Layout.map_retain_release_go]; exact hv,
        fun _ hne => absurd rfl hne⟩
  | succ fuel ih =>
      intro remaining processed cu hlen
      cases remaining with
      | nil =>
          refine ⟨by simp [Layout.map_retain_release_go], fun _ => rfl,
            fun v hv => by rw [Layout.map_retain_release_go]; exact hv,
            fun _ hne => absurd rfl hne⟩
      | cons s rest =>
          have hlen' : rest.length ≤ fuel := by simp at hlen; omega
          by_cases hc : s.coord = c
          · -- removal step: swap_remove, continue on Layout.moveLastToFront rest
            have hlenM : (Layout.moveLastToFront rest).length ≤ fuel := by
              rw [Layout.length_moveLastToFront]; exact hlen'
            have hpermM : (Layout.moveLastToFront rest).Perm rest :=
              moveLastToFront_perm rest
            have hfil : ((Layout.moveLastToFront rest).filter
                (fun x => !decide (x.coord = c))).Perm
                ((s :: rest).filter fun x => !decide (x.coord = c)) := by
              have h1 := hpermM.filter (fun x => !decide (x.coord = c))
              simpa [List.filter_cons, hc] using h1
            have hmc : (matchingCustoms c (Layout.moveLastToFront rest)).Perm
                (matchingCustoms c rest) := matchingCustoms_perm c hpermM
            have hA : ∀ cu0 : CustomEvent T,
                (Layout.map_retain_release_go c fuel processed
                  (Layout.moveLastToFront rest) cu0).1.Perm
                (processed ++ (s :: rest).filter fun x =>
                  !decide (x.coord = c)) := by
              intro cu0
              exact ((ih (Layout.moveLastToFront rest) processed cu0 hlenM).1).trans
                (hfil.append_left processed)
            cases s with
            | normalKey k d =>
                rw [map_retain_go_remove c fuel processed rest _ cu hc]
                have hms : matchingCustoms c (EState.normalKey k d :: rest) =
                    matchingCustoms c rest := by
                  simp [matchingCustoms, List.filterMap_cons]
                obtain ⟨ihA, ihB1, ihB2, ihB3⟩ :=
                  ih (Layout.moveLastToFront rest) processed cu hlenM
                refine ⟨hA cu, ?_, ihB2, ?_⟩
                · intro h0
                  rw [hms] at h0
                  rw [h0] at hmc
                  exact ihB1 hmc.eq_nil
                · intro hcu hne
                  rw [hms] at hne
                  have hneM : matchingCustoms c (Layout.moveLastToFront rest) ≠ [] := by
                    intro h0
                    rw [h0] at hmc
                    exact hne hmc.symm.eq_nil
                  obtain ⟨v, hv, hcv⟩ := ihB3 hcu hneM
                  refine ⟨v, ?_, hcv⟩
                  rw [hms]
                  exact hmc.mem_iff.mp hv
            | layerModifier k d =>
                rw [map_retain_go_remove c fuel processed rest _ cu hc]
                have hms : matchingCustoms c (EState.layerModifier k d :: rest) =
                    matchingCustoms c rest := by
                  simp [matchingCustoms, List.filterMap_cons]
                obtain ⟨ihA, ihB1, ihB2, ihB3⟩ :=
                  ih (Layout.moveLastToFront rest) processed cu hlenM
                refine ⟨hA cu, ?_, ihB2, ?_⟩
                · intro h0
                  rw [hms] at h0
                  rw [h0] at hmc
                  exact ihB1 hmc.eq_nil
                · intro hcu hne
                  rw [hms] at hne
                  have hneM : matchingCustoms c (Layout.moveLastToFront rest) ≠ [] := by
                    intro h0
                    rw [h0] at hmc
                    exact hne hmc.symm.eq_nil
                  obtain ⟨v, hv, hcv⟩ := ihB3 hcu hneM
                  refine ⟨v, ?_, hcv⟩
                  rw [hms]
                  exact hmc.mem_iff.mp hv
            | custom v0 d =>
                rw [map_retain_go_remove c fuel processed rest _ cu hc]
                have hd : d = c := by simpa [EState.coord] using hc
                have hms : matchingCustoms c (EState.custom v0 d :: rest) =
                    v0 :: matchingCustoms c rest := by
                  simp [matchingCustoms, List.filterMap_cons, hd]
                obtain ⟨ihA, ihB1, ihB2, ihB3⟩ :=
                  ih (Layout.moveLastToFront rest) processed
                    (cu.update (.release v0)) hlenM
                refine ⟨hA _, ?_, ?_, ?_⟩
                · intro h0
                  rw [hms] at h0
                  exact absurd h0 (by simp)
                · intro v hv
                  subst hv
                  exact ihB2 v rfl
                · intro hcu hne
                  have hupd : cu.update (.release v0) = .release v0 := by
                    rcases hcu with h | ⟨p, h⟩ <;> subst h <;> rfl
                  refine ⟨v0, ?_, ihB2 v0 hupd⟩
                  rw [hms]
                  exact List.mem_cons_self v0 _
          · -- keep step
            rw [map_retain_go_keep c fuel processed rest s cu hc]
            have hms : matchingCustoms c (s :: rest) =
                matchingCustoms c rest := by
              cases s with
              | custom v0 d =>
                  have hd : ¬ d = c := by simpa [EState.coord] using hc
                  simp [matchingCustoms, List.filterMap_cons, hd]
              | normalKey k d => simp [matchingCustoms, List.filterMap_cons]
              | layerModifier k d => simp [matchingCustoms, List.filterMap_cons]
            obtain ⟨ihA, ihB1, ihB2, ihB3⟩ := ih rest (processed ++ [s]) cu hlen'
            refine ⟨?_, ?_, ihB2, ?_⟩
            · refine ihA.trans ?_
              rw [List.append_assoc, List.filter_cons]
              simp [hc]
            · intro h0
              rw [hms] at h0
              exact ihB1 h0
            · intro hcu hne
              rw [hms] at hne
              obtain ⟨v, hv, hcv⟩ := ihB3 hcu hne
              refine ⟨v, ?_, hcv⟩
              rw [hms]
              exact hv

end Keyberon
namespace Keyberon

/-- A state with four normal keys, used to refute the order-preservation
part of **C9**. -/
def c9State : LState Nat :=
  { default_layer := 0,
    states := [.normalKey 1 (0, 0), .normalKey 2 (1, 1),
               .normalKey 3 (2, 2), .normalKey 4 (3, 3)],
    waiting := none,
    deque := [] }

/-- Counterexample to **C9**: releasing (0,0) removes the first entry
via `swap_remove`, which moves the LAST entry into its slot.  The
surviving entries come out as `[4, 2, 3]`, not in their original
relative insertion order `[2, 3, 4]`. -/
theorem c9_counterexample :
    (Layout.unstack ([] : Layers Nat) c9State
        (Stacked.mk (.release 0 0) 0)).map (fun p => p.1.states) =
      some [.normalKey 4 (3, 3), .normalKey 2 (1, 1), .normalKey 3 (2, 2)]
    ∧ ([.normalKey 4 (3, 3), .normalKey 2 (1, 1), .normalKey 3 (2, 2)] :
          List (EState Nat)) ≠
      [.normalKey 2 (1, 1), .normalKey 3 (2, 2), .normalKey 4 (3, 3)] :=
  ⟨rfl, by decide⟩

/-- **C9 amended**: processing `Release(i,j)` through `unstack` removes
exactly the entries whose coord equals `(i,j)` — the surviving entries
are a permutation of the survivors (not necessarily in their original
relative order, as the counterexample shows) — leaves every other
engine field unchanged, and returns `NoEvent` when no removed entry is
a `Custom`, and `CustomEvent::Release(v)` for one of the removed
`Custom` values otherwise. -/
theorem c9_release_removal {T : Type} (layers : Layers T) (st : LState T)
    (i j : Nat) (s : Stacked) (hse : s.event = .release i j) :
    ∃ st' cu, Layout.unstack layers st s = some (st', cu) ∧
      st'.default_layer = st.default_layer ∧ st'.waiting = st.waiting ∧
      st'.deque = st.deque ∧
      st'.states.Perm (st.states.filter fun x => !decide (x.coord = (i, j))) ∧
      (matchingCustoms (i, j) st.states = [] → cu = .noEvent) ∧
      (matchingCustoms (i, j) st.states ≠ [] →
        ∃ v, v ∈ matchingCustoms (i, j) st.states ∧ cu = .release v) := by
  obtain ⟨hA, hB1, _hB2, hB3⟩ :=
    map_retain_release_go_spec (i, j) st.states.length st.states [] .noEvent
      le_rfl
  refine ⟨{ st with states :=
    (Layout.map_retain_release (i, j) [] st.states .noEvent).1 },
    (Layout.map_retain_release (i, j) [] st.states .noEvent).2,
    ?_, rfl, rfl, rfl, ?_, ?_, ?_⟩
  · simp [Layout.unstack, hse]
  · simpa [Layout.map_retain_release] using hA
  · intro h0
    exact hB1 h0
  · intro hne
    exact hB3 (Or.inl rfl) hne

/-- A state holding a `Custom` entry (value 7) at (0,0) and a normal
key elsewhere, for the C9 witness. -/
def c9WitState : LState Nat :=
  { default_layer := 0,
    states := [.custom 7 (0, 0), .normalKey 2 (1, 1)],
    waiting := none,
    deque := [] }

/-- Witness for **C9 amended**: releasing (0,0) removes the `Custom`
entry, keeps the normal key, and surfaces `Release(7)`. -/
theorem c9_release_removal_witness :
    ∃ st' cu, Layout.unstack ([] : Layers Nat) c9WitState
        (Stacked.mk (.release 0 0) 0) = some (st', cu) ∧
      st'.states.Perm [.normalKey 2 (1, 1)] ∧ cu = .release 7 := by
  obtain ⟨st', cu, heq, _, _, _, hperm, _, hyes⟩ :=
    c9_release_removal ([] : Layers Nat) c9WitState 0 0
      (Stacked.mk (.release 0 0) 0) rfl
  refine ⟨st', cu, heq, ?_, ?_⟩
  · have hfil : (c9WitState.states.filter fun x =>
        !decide (x.coord = ((0 : Nat), (0 : Nat)))) =
          [.normalKey 2 (1, 1)] := rfl
    rw [hfil] at hperm
    exact hperm
  · obtain ⟨v, hv, hcu⟩ := hyes (by decide)
    have hv7 : v = 7 := by
      rw [show matchingCustoms ((0 : Nat), (0 : Nat)) c9WitState.states = [7]
        from rfl] at hv
      simpa using hv
    rw [hcu, hv7]

end Keyberon
namespace Keyberon

theorem update_noEvent_left {T : Type} (e : CustomEvent T) :
    CustomEvent.update .noEvent e = e := by
  cases e <;> rfl

theorem update_assoc {T : Type} (a x z : CustomEvent T) :
    (a.update x).update z = a.update (x.update z) := by
  cases a <;> cases x <;> cases z <;> rfl

theorem foldl_update_eq {T : Type} (l : List (CustomEvent T))
    (acc : CustomEvent T) :
    l.foldl CustomEvent.update acc =
      acc.update (l.foldl CustomEvent.update .noEvent) := by
  induction l generalizing acc with
  | nil => cases acc <;> rfl
  | cons x xs ih =>
      rw [List.foldl_cons, List.foldl_cons, ih (acc.update x),
        ih (CustomEvent.update .noEvent x), update_noEvent_left, update_assoc]

/-- The D-channel update law exactly as the specification words it:
`Press` replaces `NoEvent`; `Release` replaces `NoEvent` and `Press`;
no other combination changes the current value (claim-side
definition). -/
def specUpdate {T : Type} (acc e : CustomEvent T) : CustomEvent T :=
  match e with
  | .press v => match acc with | .noEvent => .press v | _ => acc
  | .release v =>
      match acc with
      | .noEvent => .release v
      | .press _ => .release v
      | .release _ => acc
  | .noEvent => acc

mutual

/-- Claim-side instrumentation of `do_action`: identical state
evolution, but returning the list of custom transitions produced, in
evaluation order (a successful `Custom` push produces `Press v`; a
failed push produces nothing). -/
def do_action_trace {T : Type} (layers : Layers T) (st : LState T)
    (action : Action T) (coord : Nat × Nat) (delay : Nat) :
    Option (LState T × List (CustomEvent T)) :=
  if st.waiting.isSome then none
  else
    match action with
    | .noOp => some (st, [])
    | .trans => some (st, [])
    | .holdTap timeout hold tp config _ =>
        some ({ st with
                  waiting := some ⟨coord, timeout, delay, hold, tp, config⟩ },
              [])
    | .keyCode k =>
        some ({ st with states := (Layout.statesPush st.states (.normalKey k coord)).1 }, [])
    | .multipleKeyCodes ks =>
        some ({ st with states := ks.foldl (fun acc k => (Layout.statesPush acc (.normalKey k coord)).1) st.states }, [])
    | .multipleActions acts => do_actions_trace layers st acts coord delay
    | .layer v =>
        some ({ st with states := (Layout.statesPush st.states (.layerModifier v coord)).1 }, [])
    | .defaultLayer v => some (Layout.set_default_layer layers st v, [])
    | .custom v =>
        let p := Layout.statesPush st.states (.custom v coord)
        if p.2 then some ({ st with states := p.1 }, [.press v])
        else some ({ st with states := p.1 }, [])

/-- Trace counterpart of the `MultipleActions` loop: the transitions of
the children, concatenated in evaluation order. -/
def do_actions_trace {T : Type} (layers : Layers T) (st : LState T)
    (acts : List (Action T)) (coord : Nat × Nat) (delay : Nat) :
    Option (LState T × List (CustomEvent T)) :=
  match acts with
  | [] => some (st, [])
  | a :: rest =>
      match do_action_trace layers st a coord delay with
      | none => none
      | some (st', tr) =>
          match do_actions_trace layers st' rest coord delay with
          | none => none
          | some (st'', tr') => some (st'', tr ++ tr')

end

theorem do_action_eq_trace {T : Type} (layers : Layers T) (st : LState T)
    (a : Action T) (coord : Nat × Nat) (delay : Nat) :
    Layout.do_action layers st a coord delay =
      (do_action_trace layers st a coord delay).map
        (fun p => (p.1, p.2.foldl CustomEvent.update .noEvent)) := by
  refine Layout.do_action.induct layers
    (fun st a coord delay =>
      Layout.do_action layers st a coord delay =
        (do_action_trace layers st a coord delay).map
          (fun p => (p.1, p.2.foldl CustomEvent.update .noEvent)))
    (fun st acts coord delay cu0 =>
      Layout.do_actions layers st acts coord delay cu0 =
        (do_actions_trace layers st acts coord delay).map
          (fun p => (p.1, p.2.foldl CustomEvent.update cu0)))
    ?_ ?_ ?_ ?_ ?_ ?_ ?_ ?_ ?_ ?_ ?_ ?_ ?_ ?_ st a coord delay
  · intro t st coord delay hw
    rw [Layout.do_action.eq_def, do_action_trace.eq_def]
    simp [hw]
  · intro st coord delay hw
    simp [Layout.do_action, do_action_trace, hw]
  · intro st coord delay hw
    simp [Layout.do_action, do_action_trace, hw]
  · intro st coord delay hw timeout hold tp config i
    simp [Layout.do_action, do_action_trace, hw]
  · intro st coord delay hw k
    simp [Layout.do_action, do_action_trace, hw]
  · intro st coord delay hw ks
    simp [Layout.do_action, do_action_trace, hw]
  · intro st coord delay hw acts ih
    simp only [Layout.do_action, do_action_trace, hw]
    exact ih
  · intro st coord delay hw v
    simp [Layout.do_action, do_action_trace, hw]
  · intro st coord delay hw v
    simp [Layout.do_action, do_action_trace, hw]
  · intro st coord delay hw v p hp
    rw [Layout.do_action.eq_def, do_action_trace.eq_def]
    simp [hw]
    split <;> rfl
  · intro st coord delay hw v p hp
    rw [Layout.do_action.eq_def, do_action_trace.eq_def]
    simp [hw]
    split <;> rfl
  · intro st coord delay cu0
    simp [Layout.do_actions, do_actions_trace]
  · intro st coord delay cu0 a rest hnone ih
    simp only [Layout.do_actions, do_actions_trace]
    rw [hnone] at ih ⊢
    cases ht : do_action_trace layers st a coord delay with
    | none => simp
    | some q => rw [ht] at ih; simp at ih
  · intro st coord delay cu0 a rest stm cm hsome ih1 ih2
    simp only [Layout.do_actions, do_actions_trace]
    rw [hsome] at ih1 ⊢
    cases ht : do_action_trace layers st a coord delay with
    | none => rw [ht] at ih1; simp at ih1
    | some q =>
        obtain ⟨stq, tr⟩ := q
        rw [ht] at ih1
        simp at ih1
        obtain ⟨hst, hcm⟩ := ih1
        subst hst
        dsimp only
        rw [ih2]
        cases hrest : do_actions_trace layers stm rest coord delay with
        | none => simp
        | some r =>
            obtain ⟨str, tr'⟩ := r
            have hcc : cu0.update cm = tr.foldl CustomEvent.update cu0 := by
              rw [hcm, ← foldl_update_eq]
            simp [List.foldl_append, hcc]

end Keyberon
namespace Keyberon

/-- Trace counterpart of the `map_retain` release loop: the
`Release(v)` transitions of the removed `Custom` entries, in visit
order. -/
def map_retain_release_go_tr {T : Type} (c : Nat × Nat) :
    Nat → List (EState T) → List (EState T) →
    List (EState T) × List (CustomEvent T)
  | 0, processed, _ => (processed, [])
  | fuel + 1, processed, remaining =>
      match remaining with
      | [] => (processed, [])
      | s :: rest =>
          if s.coord = c then
            let p := map_retain_release_go_tr c fuel processed
              (Layout.moveLastToFront rest)
            match s with
            | .custom v _ => (p.1, .release v :: p.2)
            | _ => p
          else map_retain_release_go_tr c fuel (processed ++ [s]) rest

theorem map_retain_go_eq_tr {T : Type} (c : Nat × Nat) :
    ∀ (fuel : Nat) (remaining processed : List (EState T))
      (cu : CustomEvent T),
      Layout.map_retain_release_go c fuel processed remaining cu =
        ((map_retain_release_go_tr c fuel processed remaining).1,
         (map_retain_release_go_tr c fuel processed remaining).2.foldl
           CustomEvent.update cu) := by
  intro fuel
  induction fuel with
  | zero =>
      intro remaining processed cu
      rfl
  | succ fuel ih =>
      intro remaining processed cu
      cases remaining with
      | nil => rfl
      | cons s rest =>
          by_cases hc : s.coord = c
          · rw [map_retain_go_remove c fuel processed rest s cu hc]
            cases s with
            | normalKey k d =>
                simp only [EState.coord] at hc
                rw [ih]
                rw [map_retain_release_go_tr]
                simp [hc, EState.coord]
            | layerModifier k d =>
                simp only [EState.coord] at hc
                rw [ih]
                rw [map_retain_release_go_tr]
                simp [hc, EState.coord]
            | custom v d =>
                simp only [EState.coord] at hc
                rw [ih]
                rw [map_retain_release_go_tr]
                simp [hc, EState.coord]
          · rw [map_retain_go_keep c fuel processed rest s cu hc]
            rw [ih]
            rw [map_retain_release_go_tr]
            cases s with
            | normalKey k d =>
                simp only [EState.coord] at hc
                simp [hc, EState.coord]
            | layerModifier k d =>
                simp only [EState.coord] at hc
                simp [hc, EState.coord]
            | custom v d =>
                simp only [EState.coord] at hc
                simp [hc, EState.coord]

/-- Trace counterpart of `unstack`. -/
def unstack_trace {T : Type} (layers : Layers T) (st : LState T)
    (stacked : Stacked) : Option (LState T × List (CustomEvent T)) :=
  match stacked.event with
  | .release i j =>
      let p := map_retain_release_go_tr (i, j) st.states.length [] st.states
      some ({ st with states := p.1 }, p.2)
  | .press i j =>
      do_action_trace layers st
        (Layout.press_as_action layers st.default_layer (i, j)
          (Layout.current_layer st))
        (i, j) stacked.since

/-- Trace counterpart of `waiting_into_hold`. -/
def waiting_into_hold_trace {T : Type} (layers : Layers T) (st : LState T) :
    Option (LState T × List (CustomEvent T)) :=
  match st.waiting with
  | some w => do_action_trace layers { st with waiting := none } w.hold w.coord 0
  | none => some (st, [])

/-- Trace counterpart of `waiting_into_tap`. -/
def waiting_into_tap_trace {T : Type} (layers : Layers T) (st : LState T) :
    Option (LState T × List (CustomEvent T)) :=
  match st.waiting with
  | some w => do_action_trace layers { st with waiting := none } w.tap w.coord 0
  | none => some (st, [])

/-- Trace counterpart of `tick`: the custom transitions produced during
one tick, in evaluation order. -/
def tick_trace {T : Type} (layers : Layers T) (st : LState T) :
    Option (LState T × List (CustomEvent T)) :=
  let st1 : LState T := { st with deque := st.deque.map Stacked.tick }
  match st1.waiting with
  | some w =>
      match w.tick st1.deque with
      | none => none
      | some (act, w') =>
          let st2 : LState T := { st1 with waiting := some w' }
          match act with
          | .hold => waiting_into_hold_trace layers st2
          | .tap => waiting_into_tap_trace layers st2
          | .noOp => some (st2, [])
  | none =>
      match st1.deque with
      | [] => some (st1, [])
      | s :: rest => unstack_trace layers { st1 with deque := rest } s

theorem unstack_eq_trace {T : Type} (layers : Layers T) (st : LState T)
    (s : Stacked) :
    Layout.unstack layers st s =
      (unstack_trace layers st s).map
        (fun p => (p.1, p.2.foldl CustomEvent.update .noEvent)) := by
  cases he : s.event with
  | release i j =>
      rw [Layout.unstack, unstack_trace, he]
      dsimp only
      rw [Layout.map_retain_release, map_retain_go_eq_tr]
      rfl
  | press i j =>
      rw [Layout.unstack, unstack_trace, he]
      dsimp only
      exact do_action_eq_trace layers st _ (i, j) s.since

theorem waiting_into_hold_eq_trace {T : Type} (layers : Layers T)
    (st : LState T) :
    Layout.waiting_into_hold layers st =
      (waiting_into_hold_trace layers st).map
        (fun p => (p.1, p.2.foldl CustomEvent.update .noEvent)) := by
  rw [Layout.waiting_into_hold, waiting_into_hold_trace]
  cases st.waiting with
  | none => rfl
  | some w => exact do_action_eq_trace layers _ _ _ _

theorem waiting_into_tap_eq_trace {T : Type} (layers : Layers T)
    (st : LState T) :
    Layout.waiting_into_tap layers st =
      (waiting_into_tap_trace layers st).map
        (fun p => (p.1, p.2.foldl CustomEvent.update .noEvent)) := by
  rw [Layout.waiting_into_tap, waiting_into_tap_trace]
  cases st.waiting with
  | none => rfl
  | some w => exact do_action_eq_trace layers _ _ _ _

/-- **C8**: the `CustomEvent` returned by each `tick` is the left fold,
in evaluation order, of the custom transitions produced during that
tick under the D-channel update law, and the update law is exactly the
one the specification states (`Press` replaces `NoEvent`; `Release`
replaces `NoEvent` and `Press`; nothing else changes the value —
consequently, in a `MultipleActions` with several `Custom` payloads,
only the first successfully pushed payload's `Press` survives the
fold). -/
theorem c8_tick_custom_fold {T : Type} (layers : Layers T) (st : LState T) :
    Layout.tick layers st =
      (tick_trace layers st).map
        (fun p => (p.1, p.2.foldl CustomEvent.update .noEvent))
    ∧ ∀ acc e : CustomEvent T, acc.update e = specUpdate acc e := by
  constructor
  · rw [Layout.tick, tick_trace]
    dsimp only
    cases st.waiting with
    | some w =>
        dsimp only
        cases w.tick (st.deque.map Stacked.tick) with
        | none => rfl
        | some p =>
            obtain ⟨act, w'⟩ := p
            dsimp only
            cases act with
            | hold => exact waiting_into_hold_eq_trace layers _
            | tap => exact waiting_into_tap_eq_trace layers _
            | noOp => rfl
    | none =>
        dsimp only
        cases st.deque.map Stacked.tick with
        | nil => rfl
        | cons s rest => exact unstack_eq_trace layers _ s
  · intro acc e
    cases acc <;> cases e <;> rfl

end Keyberon
namespace Keyberon

/-- The mutable state of `DebouncedMatrix<C, R, T, CS, RS, B>`
(`debounced_matrix.rs`): the stable image `current`, the candidate
image `new` (one `u32` bitmask per row, modelled as `Nat < 2^32`), the
agreement counter `since`, and the two tracker snapshots.  The GPIO
pins are collaborators: each call of `update` receives the sampled
matrix and tracker state as arguments. -/
structure DMState (Tr : Type) where
  current : List Nat
  new : List Nat
  since : Nat
  last_tracked : Tr
  last_stable_tracked : Tr

/-- `DebouncedMatrix::update`, given the freshly sampled `pressed_now`
image and `tracked_now` tracker state: returns the new scanner state
and whether the stable image changed (the two `mem::swap` calls are the
simultaneous exchange of `current`/`new` and of the tracker
snapshots). -/
def DebouncedMatrix.update {Tr : Type} [DecidableEq Tr] (B : Nat)
    (st : DMState Tr) (pressed_now : List Nat) (tracked_now : Tr) :
    DMState Tr × Bool :=
  if pressed_now = st.current ∧ tracked_now = st.last_stable_tracked then
    ({ st with since := 0 }, false)
  else
    let st1 : DMState Tr :=
      if st.new ≠ pressed_now ∨ st.last_tracked ≠ tracked_now then
        { st with new := pressed_now, last_tracked := tracked_now, since := 1 }
      else { st with since := st.since + 1 }
    if st1.since > B then
      ({ st1 with
          current := st1.new, new := st1.current,
          last_stable_tracked := st1.last_tracked,
          last_tracked := st1.last_stable_tracked,
          since := 0 }, true)
    else (st1, false)

/-- The `update` algorithm exactly as claim C6 words it: the candidate
overwrite branch RETURNS *unchanged* immediately (claim-side
definition; this is where the claim deviates from the code). -/
def updateClaimC6 {Tr : Type} [DecidableEq Tr] (B : Nat) (st : DMState Tr)
    (pressed_now : List Nat) (tracked_now : Tr) : DMState Tr × Bool :=
  if pressed_now = st.current ∧ tracked_now = st.last_stable_tracked then
    ({ st with since := 0 }, false)
  else if st.new ≠ pressed_now ∨ st.last_tracked ≠ tracked_now then
    ({ st with new := pressed_now, last_tracked := tracked_now, since := 1 },
      false)
  else if st.since + 1 > B then
    ({ st with
        current := st.new, new := st.current,
        last_stable_tracked := st.last_tracked,
        last_tracked := st.last_stable_tracked,
        since := 0 }, true)
  else ({ st with since := st.since + 1 }, false)

/-- Counterexample to **C6** at `B = 0`: the first deviating sample
overwrites the candidate and sets `since := 1`, and — because the code
then still runs the `since > B` check — immediately swaps and returns
*changed*, while the claim says this branch returns *unchanged*. -/
theorem c6_counterexample :
    (DebouncedMatrix.update 0
      ({ current := [0], new := [0], since := 0,
         last_tracked := (), last_stable_tracked := () } : DMState Unit)
      [1] ()).2 = true
    ∧ (updateClaimC6 0
      ({ current := [0], new := [0], since := 0,
         last_tracked := (), last_stable_tracked := () } : DMState Unit)
      [1] ()).2 = false :=
  ⟨rfl, rfl⟩

/-- The corrected `update` algorithm (claim-side definition for the
amended C6): the overwrite branch does not return; after `since` is set
(to 1 on overwrite, else incremented), the `since > B` test applies in
either case. -/
def updateSpec {Tr : Type} [DecidableEq Tr] (B : Nat) (st : DMState Tr)
    (pressed_now : List Nat) (tracked_now : Tr) : DMState Tr × Bool :=
  if pressed_now = st.current ∧ tracked_now = st.last_stable_tracked then
    ({ st with since := 0 }, false)
  else
    let overwrite : Prop := st.new ≠ pressed_now ∨ st.last_tracked ≠ tracked_now
    let since' : Nat := if overwrite then 1 else st.since + 1
    let new' : List Nat := if overwrite then pressed_now else st.new
    let lt' : Tr := if overwrite then tracked_now else st.last_tracked
    if since' > B then
      ({ current := new', new := st.current, since := 0,
         last_tracked := st.last_stable_tracked,
         last_stable_tracked := lt' }, true)
    else
      ({ st with new := new', last_tracked := lt', since := since' }, false)

/-- **C6 amended**: `update` follows the claimed steps except that the
candidate-overwrite branch does not return immediately — the
`since > B` check runs afterwards in every non-stable case (so with
`B = 0` a fresh candidate is accepted at once, as the counterexample
shows). -/
theorem c6_update_spec {Tr : Type} [DecidableEq Tr] (B : Nat)
    (st : DMState Tr) (pressed_now : List Nat) (tracked_now : Tr) :
    DebouncedMatrix.update B st pressed_now tracked_now =
      updateSpec B st pressed_now tracked_now := by
  rw [DebouncedMatrix.update, updateSpec]
  split
  · rfl
  · dsimp only
    by_cases hov : st.new ≠ pressed_now ∨ st.last_tracked ≠ tracked_now
    · simp only [if_pos hov]
    · simp only [if_neg hov]

end Keyberon
namespace Keyberon

/-- The per-bit body of `scan`'s XOR-diff for one row (`ri`, old image
word `o`, new image word `n`), over an explicit bit list (the source
iterates `0..u32::BITS`): a `0→1` bit yields `Press(ri as u8, b)`, a
`1→0` bit yields `Release(ri as u8, b)`.  The `u8` cast of the row
index is `% 256`. -/
def diffRowAux (i o n : Nat) (bs : List Nat) : List Event :=
  bs.filterMap fun b =>
    if o &&& (1 <<< b) = 0 then
      if n &&& (1 <<< b) = 0 then none else some (.press (i % 256) b)
    else
      if n &&& (1 <<< b) = 0 then some (.release (i % 256) b) else none

/-- One row's diff events, bit-major over `b ∈ [0, 32)`. -/
def diffRow (i o n : Nat) : List Event :=
  diffRowAux i o n (List.range 32)

/-- The matrix part of `scan`'s event iterator starting at row index
`k` (the source's `enumerate` is the `k = 0` instance): rows in order,
`o` is the pre-swap stable image (the post-swap `new` field), `n` the
post-swap one (`current`). -/
def matrixEventsFrom (k : Nat) (o n : List Nat) : List Event :=
  (((o.zip n).enumFrom k).map fun p => diffRow p.1 p.2.1 p.2.2).flatten

/-- `scan`'s matrix events: XOR-diff of the old stable image against
the new one, row-major then bit-major. -/
def matrixEvents (o n : List Nat) : List Event :=
  matrixEventsFrom 0 o n

/-- `DebouncedMatrix::scan`: run `update`; on *changed* return the
XOR-diff of `new` (old stable image) against `current` (new stable
image), chained with the tracker's at-most-one event. -/
def DebouncedMatrix.scan {Tr : Type} [DecidableEq Tr] (B : Nat)
    (st : DMState Tr) (pressed_now : List Nat) (tracked_now : Tr)
    (emit : Tr → Tr → Option Event) : DMState Tr × Option (List Event) :=
  let p := DebouncedMatrix.update B st pressed_now tracked_now
  if p.2 then
    (p.1, some (matrixEvents p.1.new p.1.current ++
      (emit p.1.last_tracked p.1.last_stable_tracked).toList))
  else (p.1, none)

/-- Run the scanner over successive samples, collecting the matrix
events of each *changed* scan (claim-side harness for the
reconstruction property of C7). -/
def runScan {Tr : Type} [DecidableEq Tr] (B : Nat)
    (emit : Tr → Tr → Option Event) (st : DMState Tr) :
    List (List Nat × Tr) → DMState Tr × List Event
  | [] => (st, [])
  | (p, t) :: rest =>
      let q := DebouncedMatrix.scan B st p t emit
      let evs : List Event := match q.2 with
        | some _ => matrixEvents q.1.new q.1.current
        | none => []
      let r := runScan B emit q.1 rest
      (r.1, evs ++ r.2)

/-- A simulated receiver's per-word bit update (claim-side): a press
sets the bit, a release clears it (`x ^^^ (x &&& 2^b)` clears bit `b`
of `x`). -/
def applyBit (v : Nat) : Event → Nat
  | .press _ b => v ||| (1 <<< b)
  | .release _ b => v ^^^ (v &&& (1 <<< b))

/-- A simulated receiver (claim-side): apply one event at its row. -/
def applyEvent (img : List Nat) (e : Event) : List Nat :=
  img.set e.coord.1 (applyBit (img.getD e.coord.1 0) e)

/-- Apply a sequence of events to an image. -/
def applyEvents (img : List Nat) (evs : List Event) : List Nat :=
  evs.foldl applyEvent img

/-- Fold of `applyBit` over a word-local event list. -/
def rowFold (v : Nat) (evs : List Event) : Nat :=
  evs.foldl applyBit v

theorem mem_diffRowAux {i o n : Nat} {bs : List Nat} {e : Event}
    (h : e ∈ diffRowAux i o n bs) :
    ∃ b ∈ bs, e = .press (i % 256) b ∨ e = .release (i % 256) b := by
  rw [diffRowAux] at h
  obtain ⟨b, hb, he⟩ := List.mem_filterMap.mp h
  refine ⟨b, hb, ?_⟩
  split at he
  · split at he
    · simp at he
    · simp at he
      exact Or.inl he.symm
  · split at he
    · simp at he
      exact Or.inr he.symm
    · simp at he

theorem mem_matrixEventsFrom {k : Nat} {o n : List Nat} {e : Event}
    (h : e ∈ matrixEventsFrom k o n) :
    ∃ ri oi ni b, b < 32 ∧ (ri, (oi, ni)) ∈ (o.zip n).enumFrom k ∧
      (e = .press (ri % 256) b ∨ e = .release (ri % 256) b) := by
  rw [matrixEventsFrom] at h
  obtain ⟨l, hl, hel⟩ := List.mem_flatten.mp h
  obtain ⟨p, hp, hpl⟩ := List.mem_map.mp hl
  subst hpl
  obtain ⟨b, hb, hor⟩ := mem_diffRowAux hel
  exact ⟨p.1, p.2.1, p.2.2, b, by
    simpa [diffRow] using (List.mem_range.mp (by
      simpa [diffRow] using hb)), by simpa using hp, hor⟩

/-- The checked column loop of `update`'s sampling phase for one row:
`pressed_now[ri] |= 1 << ci` for each low column.  The `u32` shift is
evaluated only for low columns; a shift by `ci ≥ 32` is an arithmetic
overflow (modelled as `none`). -/
def sampleRowGo : List Bool → Nat → Nat → Option Nat
  | [], _, acc => some acc
  | c :: rest, ci, acc =>
      if c then
        if 32 ≤ ci then none
        else sampleRowGo rest (ci + 1) (acc ||| (1 <<< ci))
      else sampleRowGo rest (ci + 1) acc

/-- One row's sampling loop over the column reads, from column 0. -/
def sampleRow (cols : List Bool) : Option Nat :=
  sampleRowGo cols 0 0

theorem sampleRowGo_isSome : ∀ (cols : List Bool) (ci acc : Nat),
    ci + cols.length ≤ 32 → (sampleRowGo cols ci acc).isSome = true := by
  intro cols
  induction cols with
  | nil => intro ci acc h; rfl
  | cons c rest ih =>
      intro ci acc h
      simp only [List.length_cons] at h
      rw [sampleRowGo]
      split
      · rw [if_neg (by omega)]
        exact ih (ci + 1) _ (by omega)
      · exact ih (ci + 1) acc (by omega)

/-- **C10**: with at most 32 columns, every shift `1 << ci` evaluated
while sampling a row is defined (no `u32` shift overflow), and every
matrix event emitted by `scan` has a bit/column index below 32.
`CS ≤ 32` is thus an implicit precondition of the scanner. -/
theorem c10_shift_bounds (cols : List Bool) (h : cols.length ≤ 32) :
    (sampleRow cols).isSome = true
    ∧ ∀ (o n : List Nat) (i b : Nat),
        (Event.press i b ∈ matrixEvents o n ∨
         Event.release i b ∈ matrixEvents o n) → b < 32 := by
  constructor
  · exact sampleRowGo_isSome cols 0 0 (by omega)
  · intro o n i b hmem
    cases hmem with
    | inl hp =>
        obtain ⟨ri, oi, ni, b', hb', _, hor⟩ := mem_matrixEventsFrom hp
        cases hor with
        | inl hh => cases hh; exact hb'
        | inr hh => cases hh
    | inr hr =>
        obtain ⟨ri, oi, ni, b', hb', _, hor⟩ := mem_matrixEventsFrom hr
        cases hor with
        | inl hh => cases hh
        | inr hh => cases hh; exact hb'

/-- Witness for **C10**: a 3-column row samples without overflow. -/
theorem c10_shift_bounds_witness :
    (sampleRow [true, false, true]).isSome = true :=
  (c10_shift_bounds [true, false, true] (by decide)).1

end Keyberon
namespace Keyberon

theorem and_one_shift_eq_zero_iff (x b : Nat) :
    (x &&& (1 <<< b) = 0) ↔ x.testBit b = false := by
  rw [Nat.shiftLeft_eq, one_mul, Nat.and_two_pow]
  cases h : x.testBit b
  · simp
  · simp [(Nat.two_pow_pos b).ne']

theorem diffRowAux_cons (i o n b : Nat) (rest : List Nat) :
    diffRowAux i o n (b :: rest) =
      if o &&& (1 <<< b) = 0 then
        if n &&& (1 <<< b) = 0 then diffRowAux i o n rest
        else .press (i % 256) b :: diffRowAux i o n rest
      else
        if n &&& (1 <<< b) = 0 then
          .release (i % 256) b :: diffRowAux i o n rest
        else diffRowAux i o n rest := by
  rw [diffRowAux, List.filterMap_cons]
  by_cases h1 : o &&& (1 <<< b) = 0 <;> by_cases h2 : n &&& (1 <<< b) = 0 <;>
    simp [diffRowAux, h1, h2]

theorem rowFold_diffRowAux (i o n : Nat) :
    ∀ (bs : List Nat) (acc : Nat), bs.Nodup →
      (∀ b, b ∉ bs → acc.testBit b = n.testBit b) →
      (∀ b ∈ bs, acc.testBit b = o.testBit b) →
      rowFold acc (diffRowAux i o n bs) = n := by
  intro bs
  induction bs with
  | nil =>
      intro acc _ h1 _
      exact Nat.eq_of_testBit_eq fun b => h1 b (by simp)
  | cons b rest ih =>
      intro acc hnd h1 h2
      have hbrest : b ∉ rest := (List.nodup_cons.mp hnd).1
      have hndr : rest.Nodup := (List.nodup_cons.mp hnd).2
      have hab : acc.testBit b = o.testBit b := h2 b (by simp)
      rw [diffRowAux_cons]
      by_cases ho : o &&& (1 <<< b) = 0
      · have hob : o.testBit b = false := (and_one_shift_eq_zero_iff o b).mp ho
        by_cases hn : n &&& (1 <<< b) = 0
        · have hnb : n.testBit b = false := (and_one_shift_eq_zero_iff n b).mp hn
          rw [if_pos ho, if_pos hn]
          refine ih acc hndr ?_ ?_
          · intro b' hb'
            by_cases hbb : b' = b
            · subst hbb
              rw [hab, hob, hnb]
            · exact h1 b' (by simp [hbb, hb'])
          · intro b' hb'
            exact h2 b' (by simp [hb'])
        · have hnb : n.testBit b = true := by
            cases htb : n.testBit b
            · exact absurd ((and_one_shift_eq_zero_iff n b).mpr htb) hn
            · rfl
          rw [if_pos ho, if_neg hn]
          show rowFold (applyBit acc (.press (i % 256) b))
            (diffRowAux i o n rest) = n
          refine ih _ hndr ?_ ?_
          · intro b' hb'
            by_cases hbb : b' = b
            · subst hbb
              simp [applyBit, Nat.testBit_or, Nat.shiftLeft_eq, one_mul,
                Nat.testBit_two_pow, hnb]
            · simp [applyBit, Nat.testBit_or, Nat.shiftLeft_eq, one_mul,
                Nat.testBit_two_pow, Ne.symm hbb]
              exact h1 b' (by simp [hbb, hb'])
          · intro b' hb'
            have hbb : b' ≠ b := fun h => hbrest (h ▸ hb')
            simp [applyBit, Nat.testBit_or, Nat.shiftLeft_eq, one_mul,
              Nat.testBit_two_pow, Ne.symm hbb]
            exact h2 b' (by simp [hb'])
      · have hob : o.testBit b = true := by
          cases htb : o.testBit b
          · exact absurd ((and_one_shift_eq_zero_iff o b).mpr htb) ho
          · rfl
        by_cases hn : n &&& (1 <<< b) = 0
        · have hnb : n.testBit b = false := (and_one_shift_eq_zero_iff n b).mp hn
          rw [if_neg ho, if_pos hn]
          show rowFold (applyBit acc (.release (i % 256) b))
            (diffRowAux i o n rest) = n
          refine ih _ hndr ?_ ?_
          · intro b' hb'
            by_cases hbb : b' = b
            · subst hbb
              simp [applyBit, Nat.testBit_xor, Nat.testBit_and,
                Nat.shiftLeft_eq, one_mul, Nat.testBit_two_pow, hnb]
            · simp [applyBit, Nat.testBit_xor, Nat.testBit_and,
                Nat.shiftLeft_eq, one_mul, Nat.testBit_two_pow,
                Ne.symm hbb]
              exact h1 b' (by simp [hbb, hb'])
          · intro b' hb'
            have hbb : b' ≠ b := fun h => hbrest (h ▸ hb')
            simp [applyBit, Nat.testBit_xor, Nat.testBit_and,
              Nat.shiftLeft_eq, one_mul, Nat.testBit_two_pow, Ne.symm hbb]
            exact h2 b' (by simp [hb'])
        · have hnb : n.testBit b = true := by
            cases htb : n.testBit b
            · exact absurd ((and_one_shift_eq_zero_iff n b).mpr htb) hn
            · rfl
          rw [if_neg ho, if_neg hn]
          refine ih acc hndr ?_ ?_
          · intro b' hb'
            by_cases hbb : b' = b
            · subst hbb
              rw [hab, hob, hnb]
            · exact h1 b' (by simp [hbb, hb'])
          · intro b' hb'
            exact h2 b' (by simp [hb'])

end Keyberon
namespace Keyberon

theorem applyEvents_append (img : List Nat) (l1 l2 : List Event) :
    applyEvents img (l1 ++ l2) = applyEvents (applyEvents img l1) l2 :=
  List.foldl_append ..

theorem applyEvents_set_row (k : Nat) :
    ∀ (evs : List Event) (img : List Nat) (v : Nat),
      k < img.length → (∀ e ∈ evs, e.coord.1 = k) →
      applyEvents (img.set k v) evs = img.set k (rowFold v evs) := by
  intro evs
  induction evs with
  | nil => intro img v _ _; rfl
  | cons e rest ih =>
      intro img v hk hall
      have hek : e.coord.1 = k := hall e (by simp)
      have hstep : applyEvent (img.set k v) e = img.set k (applyBit v e) := by
        rw [applyEvent, hek]
        have hg : (img.set k v).getD k 0 = v := by
          rw [List.getD_eq_getElem?_getD, List.getElem?_set_self (by simpa using hk)]
          rfl
        rw [hg, List.set_set]
      show applyEvents (applyEvent (img.set k v) e) rest = _
      rw [hstep, ih img (applyBit v e) hk (fun e' he' => hall e' (by simp [he']))]
      rfl

theorem mem_diffRow_coord {i o n : Nat} {e : Event} (h : e ∈ diffRow i o n) :
    e.coord.1 = i % 256 := by
  obtain ⟨b, _, hor⟩ := mem_diffRowAux (by rwa [diffRow] at h)
  cases hor with
  | inl hh => rw [hh]; rfl
  | inr hh => rw [hh]; rfl

theorem applyEvents_diffRow (pre tl : List Nat) (o n : Nat)
    (h256 : pre.length < 256) (ho : o < 2 ^ 32) (hn : n < 2 ^ 32) :
    applyEvents (pre ++ o :: tl) (diffRow pre.length o n) =
      pre ++ n :: tl := by
  have hself : (pre ++ o :: tl).set pre.length o = pre ++ o :: tl := by
    rw [List.set_append]
    simp
  have hsetn : (pre ++ o :: tl).set pre.length n = pre ++ n :: tl := by
    rw [List.set_append]
    simp
  have hk : pre.length < (pre ++ o :: tl).length := by simp
  have hall : ∀ e ∈ diffRow pre.length o n, e.coord.1 = pre.length := by
    intro e he
    rw [mem_diffRow_coord he, Nat.mod_eq_of_lt h256]
  have hfold : rowFold o (diffRow pre.length o n) = n := by
    rw [diffRow]
    refine rowFold_diffRowAux pre.length o n (List.range 32) o
      (List.nodup_range 32) ?_ (fun b _ => rfl)
    intro b hb
    have hb32 : 32 ≤ b := by simpa using hb
    have h1 : o.testBit b = false :=
      Nat.testBit_lt_two_pow (lt_of_lt_of_le ho (Nat.pow_le_pow_right (by omega) hb32))
    have h2 : n.testBit b = false :=
      Nat.testBit_lt_two_pow (lt_of_lt_of_le hn (Nat.pow_le_pow_right (by omega) hb32))
    rw [h1, h2]
  calc applyEvents (pre ++ o :: tl) (diffRow pre.length o n)
      = applyEvents ((pre ++ o :: tl).set pre.length o)
          (diffRow pre.length o n) := by rw [hself]
    _ = (pre ++ o :: tl).set pre.length
          (rowFold o (diffRow pre.length o n)) :=
        applyEvents_set_row pre.length _ _ o hk hall
    _ = pre ++ n :: tl := by rw [hfold, hsetn]

theorem matrixEventsFrom_cons (k ohd nhd : Nat) (otl ntl : List Nat) :
    matrixEventsFrom k (ohd :: otl) (nhd :: ntl) =
      diffRow k ohd nhd ++ matrixEventsFrom (k + 1) otl ntl := by
  rw [matrixEventsFrom, matrixEventsFrom]
  simp [List.zip_cons_cons, List.enumFrom_cons]

theorem applyEvents_matrixEventsFrom :
    ∀ (o n pre : List Nat), o.length = n.length →
      pre.length + o.length ≤ 256 →
      (∀ x ∈ o, x < 2 ^ 32) → (∀ x ∈ n, x < 2 ^ 32) →
      applyEvents (pre ++ o) (matrixEventsFrom pre.length o n) = pre ++ n := by
  intro o
  induction o with
  | nil =>
      intro n pre hlen _ _ _
      have hn : n = [] := by
        cases n with
        | nil => rfl
        | cons a b => simp at hlen
      subst hn
      rfl
  | cons ohd otl ih =>
      intro n pre hlen hle ho hn
      cases n with
      | nil => simp at hlen
      | cons nhd ntl =>
          rw [matrixEventsFrom_cons, applyEvents_append]
          have h256 : pre.length < 256 := by
            simp only [List.length_cons] at hle
            omega
          rw [applyEvents_diffRow pre otl ohd nhd h256
            (ho ohd (by simp)) (hn nhd (by simp))]
          have hstep := ih ntl (pre ++ [nhd])
            (by simpa using hlen)
            (by
              have h2 : pre.length + (otl.length + 1) ≤ 256 := by
                simpa using hle
              simp only [List.length_append, List.length_cons, List.length_nil]
              omega)
            (fun x hx => ho x (by simp [hx]))
            (fun x hx => hn x (by simp [hx]))
          simp only [List.append_assoc, List.singleton_append,
            List.length_append, List.length_cons, List.length_nil] at hstep
          simpa using hstep

end Keyberon
namespace Keyberon

theorem count_diffRowAux_press (i o n : Nat) :
    ∀ (bs : List Nat), bs.Nodup → ∀ b,
      (diffRowAux i o n bs).count (.press (i % 256) b) =
        if b ∈ bs ∧ o.testBit b = false ∧ n.testBit b = true then 1 else 0 := by
  intro bs
  induction bs with
  | nil => intro _ b; simp [diffRowAux]
  | cons b0 rest ih =>
      intro hnd b
      have hb0 : b0 ∉ rest := (List.nodup_cons.mp hnd).1
      have hndr := (List.nodup_cons.mp hnd).2
      rw [diffRowAux_cons]
      by_cases ho : o &&& (1 <<< b0) = 0 <;>
        by_cases hn : n &&& (1 <<< b0) = 0
      · have hob := (and_one_shift_eq_zero_iff o b0).mp ho
        have hnb := (and_one_shift_eq_zero_iff n b0).mp hn
        rw [if_pos ho, if_pos hn, ih hndr b]
        by_cases hbb : b = b0
        · subst hbb
          simp [hb0, hnb]
        · simp [hbb]
          try omega
      · have hob := (and_one_shift_eq_zero_iff o b0).mp ho
        have hnb : n.testBit b0 = true := by
          cases htb : n.testBit b0
          · exact absurd ((and_one_shift_eq_zero_iff n b0).mpr htb) hn
          · rfl
        rw [if_pos ho, if_neg hn, List.count_cons, ih hndr b]
        by_cases hbb : b = b0
        · subst hbb
          simp [hb0, hob, hnb]
        · simp [hbb]
          try omega
      · have hnb := (and_one_shift_eq_zero_iff n b0).mp hn
        rw [if_neg ho, if_pos hn, List.count_cons, ih hndr b]
        by_cases hbb : b = b0
        · have hob : o.testBit b0 = true := by
            cases htb : o.testBit b0
            · exact absurd ((and_one_shift_eq_zero_iff o b0).mpr htb) ho
            · rfl
          subst hbb
          simp [hb0, hob]
        · simp [hbb]
          try omega
      · have hob : o.testBit b0 = true := by
          cases htb : o.testBit b0
          · exact absurd ((and_one_shift_eq_zero_iff o b0).mpr htb) ho
          · rfl
        rw [if_neg ho, if_neg hn, ih hndr b]
        by_cases hbb : b = b0
        · subst hbb
          simp [hb0, hob]
        · simp [hbb]
          try omega

theorem count_diffRowAux_release (i o n : Nat) :
    ∀ (bs : List Nat), bs.Nodup → ∀ b,
      (diffRowAux i o n bs).count (.release (i % 256) b) =
        if b ∈ bs ∧ o.testBit b = true ∧ n.testBit b = false then 1 else 0 := by
  intro bs
  induction bs with
  | nil => intro _ b; simp [diffRowAux]
  | cons b0 rest ih =>
      intro hnd b
      have hb0 : b0 ∉ rest := (List.nodup_cons.mp hnd).1
      have hndr := (List.nodup_cons.mp hnd).2
      rw [diffRowAux_cons]
      by_cases ho : o &&& (1 <<< b0) = 0 <;>
        by_cases hn : n &&& (1 <<< b0) = 0
      · have hob := (and_one_shift_eq_zero_iff o b0).mp ho
        rw [if_pos ho, if_pos hn, ih hndr b]
        by_cases hbb : b = b0
        · subst hbb
          simp [hb0, hob]
        · simp [hbb]
          try omega
      · have hob := (and_one_shift_eq_zero_iff o b0).mp ho
        rw [if_pos ho, if_neg hn, List.count_cons, ih hndr b]
        by_cases hbb : b = b0
        · subst hbb
          simp [hb0, hob]
        · simp [hbb]
          try omega
      · have hnb := (and_one_shift_eq_zero_iff n b0).mp hn
        have hob : o.testBit b0 = true := by
          cases htb : o.testBit b0
          · exact absurd ((and_one_shift_eq_zero_iff o b0).mpr htb) ho
          · rfl
        rw [if_neg ho, if_pos hn, List.count_cons, ih hndr b]
        by_cases hbb : b = b0
        · subst hbb
          simp [hb0, hob, hnb]
        · simp [hbb]
          try omega
      · have hnb : n.testBit b0 = true := by
          cases htb : n.testBit b0
          · exact absurd ((and_one_shift_eq_zero_iff n b0).mpr htb) hn
          · rfl
        rw [if_neg ho, if_neg hn, ih hndr b]
        by_cases hbb : b = b0
        · subst hbb
          simp [hb0, hnb]
        · simp [hbb]
          try omega

theorem count_diffRow_ne (j o n ri b : Nat) (hj : j % 256 ≠ ri) :
    ((diffRow j o n).count (.press ri b) = 0
      ∧ (diffRow j o n).count (.release ri b) = 0) := by
  constructor <;>
    refine List.count_eq_zero_of_not_mem fun hmem => ?_
  · have := mem_diffRow_coord hmem
    simp only [Event.coord] at this
    exact hj this.symm
  · have := mem_diffRow_coord hmem
    simp only [Event.coord] at this
    exact hj this.symm

end Keyberon
namespace Keyberon

theorem count_matrixEventsFrom_lt :
    ∀ (o n : List Nat) (k ri b : Nat), o.length = n.length →
      k + o.length ≤ 256 → ri < k →
      (matrixEventsFrom k o n).count (.press ri b) = 0
      ∧ (matrixEventsFrom k o n).count (.release ri b) = 0 := by
  intro o
  induction o with
  | nil =>
      intro n k ri b hlen _ _
      have hn : n = [] := by
        cases n with
        | nil => rfl
        | cons a l => simp at hlen
      subst hn
      exact ⟨rfl, rfl⟩
  | cons ohd otl ih =>
      intro n k ri b hlen hle hri
      cases n with
      | nil => simp at hlen
      | cons nhd ntl =>
          rw [matrixEventsFrom_cons]
          have hk256 : k < 256 := by
            simp only [List.length_cons] at hle
            omega
          have hne : k % 256 ≠ ri := by
            rw [Nat.mod_eq_of_lt hk256]
            omega
          have hd := count_diffRow_ne k ohd nhd ri b hne
          have ht := ih ntl (k + 1) ri b (by simpa using hlen)
            (by simp only [List.length_cons] at hle; omega) (by omega)
          constructor <;> simp [List.count_append, hd.1, hd.2, ht.1, ht.2]

theorem count_matrixEventsFrom :
    ∀ (o n : List Nat) (k ri b : Nat), o.length = n.length →
      k + o.length ≤ 256 → k ≤ ri → ri < k + o.length → b < 32 →
      ((matrixEventsFrom k o n).count (.press ri b) =
        if (o.getD (ri - k) 0).testBit b = false ∧
           (n.getD (ri - k) 0).testBit b = true then 1 else 0)
      ∧ ((matrixEventsFrom k o n).count (.release ri b) =
        if (o.getD (ri - k) 0).testBit b = true ∧
           (n.getD (ri - k) 0).testBit b = false then 1 else 0) := by
  intro o
  induction o with
  | nil =>
      intro n k ri b _ _ hk hri _
      simp at hri
      omega
  | cons ohd otl ih =>
      intro n k ri b hlen hle hk hri hb
      cases n with
      | nil => simp at hlen
      | cons nhd ntl =>
          rw [matrixEventsFrom_cons]
          have hk256 : k < 256 := by
            simp only [List.length_cons] at hle
            omega
          by_cases hrk : ri = k
          · subst hrk
            have hfst := count_diffRowAux_press ri ohd nhd (List.range 32)
              (List.nodup_range 32) b
            have hfst2 := count_diffRowAux_release ri ohd nhd (List.range 32)
              (List.nodup_range 32) b
            have hmod : ri % 256 = ri := Nat.mod_eq_of_lt hk256
            have htl := count_matrixEventsFrom_lt otl ntl (ri + 1) ri b
              (by simpa using hlen)
              (by simp only [List.length_cons] at hle; omega) (by omega)
            rw [diffRow]
            rw [hmod] at hfst hfst2
            constructor <;>
              simp [List.count_append, hfst, hfst2, htl.1, htl.2,
                List.mem_range, hb]
          · have hkr : k < ri := by omega
            have hne : k % 256 ≠ ri := by
              rw [Nat.mod_eq_of_lt hk256]
              omega
            have hd := count_diffRow_ne k ohd nhd ri b hne
            have ht := ih ntl (k + 1) ri b (by simpa using hlen)
              (by simp only [List.length_cons] at hle; omega)
              (by omega) (by simp only [List.length_cons] at hri; omega) hb
            have hgetD : ∀ (x : Nat) (xt : List Nat),
                (x :: xt).getD (ri - k) 0 = xt.getD (ri - (k + 1)) 0 := by
              intro x xt
              have : ri - k = (ri - (k + 1)) + 1 := by omega
              rw [this]
              rfl
            rw [hgetD ohd otl, hgetD nhd ntl]
            constructor <;>
              simp [List.count_append, hd.1, hd.2, ht.1, ht.2]

end Keyberon
namespace Keyberon

theorem update_fields {Tr : Type} [DecidableEq Tr] (B : Nat) (st : DMState Tr)
    (p : List Nat) (t : Tr) :
    ((DebouncedMatrix.update B st p t).2 = true →
      (DebouncedMatrix.update B st p t).1.new = st.current ∧
      ((DebouncedMatrix.update B st p t).1.current = p ∨
       (DebouncedMatrix.update B st p t).1.current = st.new))
    ∧ ((DebouncedMatrix.update B st p t).2 = false →
      (DebouncedMatrix.update B st p t).1.current = st.current ∧
      ((DebouncedMatrix.update B st p t).1.new = p ∨
       (DebouncedMatrix.update B st p t).1.new = st.new)) := by
  rw [c6_update_spec, updateSpec]
  split
  · exact ⟨fun h => by simp at h, fun _ => ⟨rfl, Or.inr rfl⟩⟩
  · dsimp only
    by_cases hov : st.new ≠ p ∨ st.last_tracked ≠ t
    · rw [if_pos hov]
      split
      · exact ⟨fun _ => ⟨rfl, Or.inl rfl⟩, fun h => by simp at h⟩
      · exact ⟨fun h => by simp at h, fun _ => ⟨rfl, Or.inl rfl⟩⟩
    · rw [if_neg hov]
      split
      · exact ⟨fun _ => ⟨rfl, Or.inr rfl⟩, fun h => by simp at h⟩
      · exact ⟨fun h => by simp at h, fun _ => ⟨rfl, Or.inr rfl⟩⟩

theorem runScan_reconstruct {Tr : Type} [DecidableEq Tr] (B : Nat)
    (emit : Tr → Tr → Option Event) :
    ∀ (samples : List (List Nat × Tr)) (st : DMState Tr),
      st.new.length = st.current.length → st.current.length ≤ 256 →
      (∀ x ∈ st.current, x < 2 ^ 32) → (∀ x ∈ st.new, x < 2 ^ 32) →
      (∀ s ∈ samples, s.1.length = st.current.length ∧ ∀ x ∈ s.1, x < 2 ^ 32) →
      applyEvents st.current (runScan B emit st samples).2 =
        (runScan B emit st samples).1.current := by
  intro samples
  induction samples with
  | nil => intro st _ _ _ _ _; rfl
  | cons s rest ih =>
      obtain ⟨p, t⟩ := s
      intro st hlen h256 hcur hnew hs
      obtain ⟨hplen, hpbound⟩ := hs (p, t) (by simp)
      have hQ := update_fields B st p t
      rw [runScan]
      rw [DebouncedMatrix.scan]
      dsimp only
      cases hch : (DebouncedMatrix.update B st p t).2 with
      | false =>
          rw [if_neg (by simp [hch])]
          dsimp only
          obtain ⟨hcur', hnew'⟩ := hQ.2 hch
          have hrest := ih (DebouncedMatrix.update B st p t).1
            (by rcases hnew' with h | h <;> rw [h, hcur'] <;> [exact hplen; exact hlen])
            (by rw [hcur']; exact h256)
            (by rw [hcur']; exact hcur)
            (by rcases hnew' with h | h <;> rw [h] <;> [exact hpbound; exact hnew])
            (by intro s hsr; rw [hcur']; exact hs s (by simp [hsr]))
          rw [hcur'] at hrest
          simpa using hrest
      | true =>
          rw [if_pos (by simp [hch])]
          dsimp only
          obtain ⟨hnew', hcur'⟩ := hQ.1 hch
          have hXlen : (DebouncedMatrix.update B st p t).1.current.length =
              st.current.length := by
            rcases hcur' with h | h <;> rw [h] <;> [exact hplen; exact hlen]
          have hXbound : ∀ x ∈ (DebouncedMatrix.update B st p t).1.current,
              x < 2 ^ 32 := by
            rcases hcur' with h | h <;> rw [h] <;> [exact hpbound; exact hnew]
          have hinner : applyEvents st.current
              (matrixEvents (DebouncedMatrix.update B st p t).1.new
                (DebouncedMatrix.update B st p t).1.current) =
              (DebouncedMatrix.update B st p t).1.current := by
            rw [hnew', matrixEvents]
            have h0 := applyEvents_matrixEventsFrom st.current
              (DebouncedMatrix.update B st p t).1.current []
              (by rw [hXlen]) (by simpa using h256) hcur hXbound
            simpa using h0
          rw [applyEvents_append, hinner]
          exact ih (DebouncedMatrix.update B st p t).1
            (by rw [hnew', hXlen])
            (by rw [hXlen]; exact h256)
            hXbound
            (by rw [hnew']; exact hcur)
            (by intro s hsr; rw [hXlen]; exact hs s (by simp [hsr]))

end Keyberon
namespace Keyberon

/-- **C7**: (i) when a scan reports *changed*, the matrix event list
contains exactly one `Press(ri, b)` for every bit that is 0 in the old
stable image and 1 in the new one, and exactly one `Release(ri, b)`
for every 1→0 bit (counts are 0/1 exactly as the bit diff dictates);
(ii) the full event sequence is the matrix events followed by at most
one tracker event; (iii) applying the matrix events of successive
scans to the initial stable image reconstructs the scanner's final
`current` image exactly. -/
theorem c7_scan_events {Tr : Type} [DecidableEq Tr] (B : Nat)
    (emit : Tr → Tr → Option Event) :
    (∀ (o n : List Nat) (ri b : Nat), o.length = n.length →
      o.length ≤ 256 → ri < o.length → b < 32 →
      ((matrixEvents o n).count (.press ri b) =
        if (o.getD ri 0).testBit b = false ∧ (n.getD ri 0).testBit b = true
        then 1 else 0)
      ∧ ((matrixEvents o n).count (.release ri b) =
        if (o.getD ri 0).testBit b = true ∧ (n.getD ri 0).testBit b = false
        then 1 else 0))
    ∧ (∀ (st : DMState Tr) (p : List Nat) (t : Tr) (st' : DMState Tr)
        (l : List Event),
        DebouncedMatrix.scan B st p t emit = (st', some l) →
        ∃ tr, l = matrixEvents st'.new st'.current ++ tr ∧ tr.length ≤ 1)
    ∧ (∀ (samples : List (List Nat × Tr)) (st : DMState Tr),
        st.new.length = st.current.length → st.current.length ≤ 256 →
        (∀ x ∈ st.current, x < 2 ^ 32) → (∀ x ∈ st.new, x < 2 ^ 32) →
        (∀ s ∈ samples, s.1.length = st.current.length ∧
          ∀ x ∈ s.1, x < 2 ^ 32) →
        applyEvents st.current (runScan B emit st samples).2 =
          (runScan B emit st samples).1.current) := by
  refine ⟨?_, ?_, fun samples st h1 h2 h3 h4 h5 =>
    runScan_reconstruct B emit samples st h1 h2 h3 h4 h5⟩
  · intro o n ri b hlen h256 hri hb
    have h := count_matrixEventsFrom o n 0 ri b hlen (by omega) (by omega)
      (by omega) hb
    simpa [matrixEvents] using h
  · intro st p t st' l hscan
    rw [DebouncedMatrix.scan] at hscan
    by_cases hch : (DebouncedMatrix.update B st p t).2 = true
    · rw [if_pos hch] at hscan
      have hst : (DebouncedMatrix.update B st p t).1 = st' :=
        congrArg Prod.fst hscan
      have hl := congrArg Prod.snd hscan
      simp only at hl
      subst hst
      simp at hl
      refine ⟨_, hl.symm, ?_⟩
      cases emit (DebouncedMatrix.update B st p t).1.last_tracked
        (DebouncedMatrix.update B st p t).1.last_stable_tracked <;> simp
    · rw [if_neg hch] at hscan
      have hl := congrArg Prod.snd hscan
      simp at hl

/-- A one-row scanner state with a cleared image, for the C7 witness. -/
def dm0 : DMState Unit :=
  { current := [0], new := [0], since := 0,
    last_tracked := (), last_stable_tracked := () }

/-- Witness for **C7**: with debounce 0, sampling `[1]` flips bit 0 on,
the scan emits `Press(0,0)`, and replaying it onto the old image `[0]`
reconstructs the new stable image `[1]`. -/
theorem c7_scan_events_witness :
    applyEvents dm0.current (runScan 0 (fun _ _ => none) dm0 [([1], ())]).2 =
      (runScan 0 (fun _ _ => none) dm0 [([1], ())]).1.current :=
  (c7_scan_events 0 (fun _ _ => none)).2.2 [([1], ())] dm0 rfl (by decide)
    (by decide) (by decide) (by decide)

end Keyberon
